import Mathlib

/-!
Verification development for the in-process cache subsystem of the
URL_Shorten_QR_Generator repository.

The model is a shallow embedding of `backend/saas_url/cache.py`
(class `LRUCache`), `backend/saas_url/cache_decorators.py`
(`generate_cache_key`, `cache_result`, `cache_view`,
`invalidate_cache_pattern`) and `backend/saas_url/cache_middleware.py`
(`CacheMiddleware.process_request` / `process_response`).

Modelling conventions:
* Python `OrderedDict` / `dict` become association lists
  `List (String × β)`; for the ordered entry map the first element is the
  least-recently-used entry and the last is the most-recently-used one,
  exactly as in `OrderedDict` (`next(iter(...))` is the first element,
  assignment appends at the end).
* `time.time()` becomes an explicit `now : Nat` argument threaded into
  every operation that reads the clock.
* Python exceptions inside the cache layer are modelled structurally:
  every `try/except` in the source either swallows the error (the model
  takes the corresponding branch explicitly) or retries (the model calls
  the wrapped computation again).  Wrapped computations that can raise are
  modelled as `Nat → Except E V`, indexed by how many times they have been
  invoked so far, so that a retry is observable.
* Values stored in a cache are of an arbitrary type `α`; where the Python
  code distinguishes `None` (the decorator layer), `α` is instantiated
  with `Option V` and `Option.none` plays the role of Python `None`.
-/

set_option autoImplicit false

namespace CacheSpec

/-! ### Association-list toolkit (Python dict / OrderedDict) -/

/-- Look up the value stored under key `k` (first matching entry). -/
def lookupKey {β : Type} (l : List (String × β)) (k : String) : Option β :=
  match l with
  | [] => none
  | (k1, v) :: rest => if k1 = k then some v else lookupKey rest k

/-- Python `k in d`. -/
def containsKey {β : Type} (l : List (String × β)) (k : String) : Bool :=
  (lookupKey l k).isSome

/-- Python `del d[k]` (removes the first entry with key `k`, if any). -/
def eraseKey {β : Type} (k : String) (l : List (String × β)) : List (String × β) :=
  match l with
  | [] => []
  | (k1, v) :: rest => if k1 = k then rest else (k1, v) :: eraseKey k rest

/-- Python `d[k] = v` on a plain dict: update in place if present,
otherwise append at the end (insertion order is preserved). -/
def setAssoc {β : Type} (k : String) (v : β) (l : List (String × β)) : List (String × β) :=
  match l with
  | [] => [(k, v)]
  | (k1, v1) :: rest => if k1 = k then (k, v) :: rest else (k1, v1) :: setAssoc k v rest

/-- The list of keys of an association list, in order. -/
def keysOf {β : Type} (l : List (String × β)) : List String :=
  l.map Prod.fst

@[simp] theorem lookupKey_nil {β : Type} (k : String) : lookupKey ([] : List (String × β)) k = none := rfl

@[simp] theorem lookupKey_cons {β : Type} (k1 : String) (v : β) (rest : List (String × β)) (k : String) :
    lookupKey ((k1, v) :: rest) k = if k1 = k then some v else lookupKey rest k := rfl

@[simp] theorem eraseKey_nil {β : Type} (k : String) : eraseKey k ([] : List (String × β)) = [] := rfl

@[simp] theorem eraseKey_cons {β : Type} (k k1 : String) (v : β) (rest : List (String × β)) :
    eraseKey k ((k1, v) :: rest) = if k1 = k then rest else (k1, v) :: eraseKey k rest := rfl

@[simp] theorem keysOf_nil {β : Type} : keysOf ([] : List (String × β)) = [] := rfl

@[simp] theorem keysOf_cons {β : Type} (p : String × β) (rest : List (String × β)) :
    keysOf (p :: rest) = p.1 :: keysOf rest := rfl

@[simp] theorem keysOf_append {β : Type} (l1 l2 : List (String × β)) :
    keysOf (l1 ++ l2) = keysOf l1 ++ keysOf l2 := by
  simp [keysOf]

theorem lookupKey_isSome_iff_mem_keysOf {β : Type} (l : List (String × β)) (k : String) :
    (lookupKey l k).isSome = true ↔ k ∈ keysOf l := by
  induction l with
  | nil => simp
  | cons p rest ih =>
    obtain ⟨k1, v⟩ := p
    by_cases h : k1 = k
    · subst h; simp
    · have hs : ¬(k = k1) := fun he => h he.symm
      simp [h, hs, ih]

theorem containsKey_iff_mem_keysOf {β : Type} (l : List (String × β)) (k : String) :
    containsKey l k = true ↔ k ∈ keysOf l := by
  simpa [containsKey] using lookupKey_isSome_iff_mem_keysOf l k

theorem lookupKey_eq_none_iff {β : Type} (l : List (String × β)) (k : String) :
    lookupKey l k = none ↔ k ∉ keysOf l := by
  rw [← lookupKey_isSome_iff_mem_keysOf]
  cases hl : lookupKey l k <;> simp [hl]

theorem eraseKey_sublist {β : Type} (k : String) (l : List (String × β)) :
    List.Sublist (eraseKey k l) l := by
  induction l with
  | nil => simp
  | cons p rest ih =>
    obtain ⟨k1, v⟩ := p
    by_cases h : k1 = k
    · simp [h]
    · simpa [h] using ih.cons₂ (k1, v)

theorem eraseKey_of_not_mem {β : Type} (k : String) (l : List (String × β))
    (h : k ∉ keysOf l) : eraseKey k l = l := by
  induction l with
  | nil => rfl
  | cons p rest ih =>
    obtain ⟨k1, v⟩ := p
    simp only [keysOf_cons, List.mem_cons] at h
    push_neg at h
    simp [Ne.symm h.1, ih h.2]

/-- Under distinct keys, erasing behaves like filtering the key away. -/
theorem eraseKey_eq_filter {β : Type} (k : String) (l : List (String × β))
    (hnd : (keysOf l).Nodup) :
    eraseKey k l = l.filter (fun p => !(p.1 = k : Bool)) := by
  induction l with
  | nil => rfl
  | cons p rest ih =>
    obtain ⟨k1, v⟩ := p
    simp only [keysOf_cons, List.nodup_cons] at hnd
    by_cases h : k1 = k
    · subst h
      have hrest : rest.filter (fun p => !(p.1 = k1 : Bool)) = rest := by
        apply List.filter_eq_self.2
        intro p hp
        have hp1 : p.1 ≠ k1 := by
          intro he
          exact hnd.1 (he ▸ List.mem_map_of_mem Prod.fst hp)
        simp [hp1]
      simp [hrest]
    · simp [h, ih hnd.2]

theorem keysOf_sublist_of_sublist {β : Type} {l1 l2 : List (String × β)}
    (h : List.Sublist l1 l2) : List.Sublist (keysOf l1) (keysOf l2) :=
  List.Sublist.map Prod.fst h

theorem keysOf_eraseKey_nodup {β : Type} (k : String) (l : List (String × β))
    (hnd : (keysOf l).Nodup) : (keysOf (eraseKey k l)).Nodup :=
  List.Nodup.sublist (keysOf_sublist_of_sublist (eraseKey_sublist k l)) hnd

theorem not_mem_keysOf_eraseKey {β : Type} (k : String) (l : List (String × β))
    (hnd : (keysOf l).Nodup) : k ∉ keysOf (eraseKey k l) := by
  rw [eraseKey_eq_filter k l hnd]
  intro hmem
  simp only [keysOf, List.mem_map] at hmem
  obtain ⟨p, hp, hpk⟩ := hmem
  have hf := List.of_mem_filter hp
  rw [hpk] at hf
  simp at hf

theorem mem_keysOf_eraseKey_iff {β : Type} (k x : String) (l : List (String × β))
    (hnd : (keysOf l).Nodup) :
    x ∈ keysOf (eraseKey k l) ↔ x ∈ keysOf l ∧ x ≠ k := by
  rw [eraseKey_eq_filter k l hnd]
  simp only [keysOf, List.mem_map]
  constructor
  · rintro ⟨p, hp, hpx⟩
    have hf := List.of_mem_filter hp
    have hm := List.mem_of_mem_filter hp
    rw [hpx] at hf
    refine ⟨⟨p, hm, hpx⟩, ?_⟩
    intro he
    rw [he] at hf
    simp at hf
  · rintro ⟨⟨p, hp, hpx⟩, hne⟩
    refine ⟨p, List.mem_filter.2 ⟨hp, ?_⟩, hpx⟩
    rw [hpx]
    simp [hne]

theorem lookupKey_eraseKey_of_ne {β : Type} (k x : String) (l : List (String × β))
    (hne : x ≠ k) (hnd : (keysOf l).Nodup) :
    lookupKey (eraseKey k l) x = lookupKey l x := by
  induction l with
  | nil => rfl
  | cons p rest ih =>
    obtain ⟨k1, v⟩ := p
    simp only [keysOf_cons, List.nodup_cons] at hnd
    by_cases h : k1 = k
    · subst h
      have hx : ¬(k1 = x) := fun he => hne he.symm
      simp [hx]
    · by_cases hx : k1 = x
      · simp [h, hx, hne]
      · simp [h, hx, ih hnd.2]

theorem lookupKey_append_right {β : Type} (l1 l2 : List (String × β)) (k : String)
    (h : k ∉ keysOf l1) : lookupKey (l1 ++ l2) k = lookupKey l2 k := by
  induction l1 with
  | nil => rfl
  | cons p rest ih =>
    obtain ⟨k1, v⟩ := p
    simp only [keysOf_cons, List.mem_cons] at h
    push_neg at h
    simp only [List.cons_append, lookupKey_cons, Ne.symm h.1, if_false]
    exact ih h.2

theorem lookupKey_append_left {β : Type} (l1 l2 : List (String × β)) (k : String)
    (h : k ∈ keysOf l1) : lookupKey (l1 ++ l2) k = lookupKey l1 k := by
  induction l1 with
  | nil => simp at h
  | cons p rest ih =>
    obtain ⟨k1, v⟩ := p
    by_cases he : k1 = k
    · simp [he]
    · simp only [keysOf_cons, List.mem_cons] at h
      rcases h with h | h
      · exact absurd h.symm he
      · simp [he, ih h]

theorem setAssoc_of_not_mem {β : Type} (k : String) (v : β) (l : List (String × β))
    (h : k ∉ keysOf l) : setAssoc k v l = l ++ [(k, v)] := by
  induction l with
  | nil => rfl
  | cons p rest ih =>
    obtain ⟨k1, v1⟩ := p
    simp only [keysOf_cons, List.mem_cons] at h
    push_neg at h
    simp [setAssoc, Ne.symm h.1, ih h.2]

/-! ### The cache state (class `LRUCache` in `cache.py`)

`cache` is the `OrderedDict` of entries (first = least recently used,
last = most recently used), `expiry_times` the plain dict of absolute expiry
timestamps, and the remaining fields are the `self.stats` counters together
with the constructor parameters `max_size` and `default_ttl`. -/

structure CacheState (α : Type) where
  max_size : Nat
  default_ttl : Nat
  cache : List (String × α)
  expiry_times : List (String × Nat)
  hits : Nat
  misses : Nat
  sets : Nat
  deletes : Nat
  evictions : Nat
  expirations : Nat
  created_at : Nat
  last_cleanup : Nat
deriving Repr, DecidableEq

namespace LRUCache

/-- `LRUCache.__init__(max_size, default_ttl)` at clock value `now`:
empty maps, zeroed counters, `created_at = last_cleanup = now`. -/
def init (α : Type) (max_size default_ttl now : Nat) : CacheState α :=
  { max_size := max_size
    default_ttl := default_ttl
    cache := []
    expiry_times := []
    hits := 0
    misses := 0
    sets := 0
    deletes := 0
    evictions := 0
    expirations := 0
    created_at := now
    last_cleanup := now }

/-- Python `ttl or self.default_ttl` inside `set`: `None` and `0` are both
falsy, so either yields the default TTL. -/
def ttlOrDefault (ttl : Option Nat) (d : Nat) : Nat :=
  match ttl with
  | none => d
  | some t => if t = 0 then d else t

/-- `LRUCache._is_expired`: a key with no expiry record is never expired;
otherwise expired exactly when `time.time() > expiry` (strictly). -/
def is_expired {α : Type} (s : CacheState α) (key : String) (now : Nat) : Bool :=
  match lookupKey s.expiry_times key with
  | none => false
  | some t => t < now

/-- `LRUCache._remove_expired`: `del self.cache[key]`, `del
self.expiry_times[key]`, `self.stats[expirations] += 1`, with `KeyError`
swallowed: if the key is absent from `cache` nothing happens; if it is in
`cache` but not in `expiry_times`, the first delete has already happened
when the `KeyError` fires, so the partial mutation is kept and the counter
is not incremented. -/
def remove_expired {α : Type} (s : CacheState α) (key : String) : CacheState α :=
  if containsKey s.cache key then
    if containsKey s.expiry_times key then
      { s with cache := eraseKey key s.cache
               expiry_times := eraseKey key s.expiry_times
               expirations := s.expirations + 1 }
    else
      { s with cache := eraseKey key s.cache }
  else s

/-- `LRUCache._evict_lru`: remove the first (least recently used) entry of
the ordered map, drop its expiry record if present, count one eviction.
`StopIteration` on an empty map is swallowed (`pass`). -/
def evict_lru {α : Type} (s : CacheState α) : CacheState α :=
  match s.cache with
  | [] => s
  | (k, _) :: rest =>
    { s with cache := rest
             expiry_times := if containsKey s.expiry_times k then eraseKey k s.expiry_times else s.expiry_times
             evictions := s.evictions + 1 }

/-- The `while len(self.cache) >= self.max_size: self._evict_lru()` loop of
`set`, with the evicted keys returned alongside the final state.  The loop
is bounded by `fuel`; every genuine iteration removes one entry, so
`fuel = s.cache.length` reproduces the loop exactly (the only case cut off
is `max_size = 0` with an empty map, where the Python loop never
terminates). -/
def evictSteps {α : Type} : Nat → CacheState α → CacheState α × List String
  | 0, s => (s, [])
  | fuel + 1, s =>
    if s.max_size ≤ s.cache.length then
      match s.cache with
      | [] => (s, [])
      | (k, _) :: _ =>
        let p := evictSteps fuel (evict_lru s)
        (p.1, k :: p.2)
    else (s, [])

/-- The eviction loop of `set` run to completion. -/
def evictWhile {α : Type} (s : CacheState α) : CacheState α × List String :=
  evictSteps s.cache.length s

/-- The `# Remove existing key if present` block at the start of
`LRUCache.set`: `del self.cache[key]; del self.expiry_times[key]` guarded
by `if key in self.cache`. -/
def removeExisting {α : Type} (s : CacheState α) (key : String) : CacheState α :=
  if containsKey s.cache key then
    { s with cache := eraseKey key s.cache
             expiry_times := eraseKey key s.expiry_times }
  else s

/-- `LRUCache.set`: delete any existing entry (both maps), evict while at
capacity, insert at the most-recently-used position, record
`now + (ttl or default_ttl)`, count one `set`, return `True`.  The one
failure path of the source: when the key is in `cache` but not in
`expiry_times`, `del self.expiry_times[key]` raises `KeyError` after the
entry was already deleted from `cache`; the outer `except` returns `False`,
keeping the partial mutation. -/
def set {α : Type} (s : CacheState α) (key : String) (value : α) (ttl : Option Nat)
    (now : Nat) : Bool × CacheState α :=
  if containsKey s.cache key && !containsKey s.expiry_times key then
    (false, { s with cache := eraseKey key s.cache })
  else
    let s2 := (evictWhile (removeExisting s key)).1
    (true, { s2 with cache := s2.cache ++ [(key, value)]
                     expiry_times := setAssoc key (now + ttlOrDefault ttl s2.default_ttl) s2.expiry_times
                     sets := s2.sets + 1 })

/-- `LRUCache.get`: absent key counts a miss and yields the default;
a present expired key is removed (via `_remove_expired`) and counts a
miss; a present valid key is popped and re-appended (most recently used)
and counts a hit. -/
def get {α : Type} (s : CacheState α) (key : String) (default : α) (now : Nat) :
    α × CacheState α :=
  match lookupKey s.cache key with
  | some v =>
    if is_expired s key now then
      let s1 := remove_expired s key
      (default, { s1 with misses := s1.misses + 1 })
    else
      (v, { s with cache := eraseKey key s.cache ++ [(key, v)]
                   hits := s.hits + 1 })
  | none => (default, { s with misses := s.misses + 1 })

/-- `LRUCache.exists` (the source method is named `exists`): same expiry
check as `get`, no recency or counter changes, removes the entry when it
is found expired. -/
def existsKey {α : Type} (s : CacheState α) (key : String) (now : Nat) :
    Bool × CacheState α :=
  if containsKey s.cache key then
    if is_expired s key now then (false, remove_expired s key)
    else (true, s)
  else (false, s)

/-- `LRUCache.delete`: remove the entry and (if present) its expiry record,
count one delete, report whether something was removed. -/
def delete {α : Type} (s : CacheState α) (key : String) : Bool × CacheState α :=
  if containsKey s.cache key then
    (true, { s with cache := eraseKey key s.cache
                    expiry_times := if containsKey s.expiry_times key then eraseKey key s.expiry_times else s.expiry_times
                    deletes := s.deletes + 1 })
  else (false, s)

/-- `LRUCache.clear`: empty both maps; the statistics dict is untouched. -/
def clear {α : Type} (s : CacheState α) : CacheState α :=
  { s with cache := []
           expiry_times := [] }

/-- `LRUCache._cleanup_expired`: collect the keys whose expiry is strictly
below `now` (Python `current_time > expiry_time`), remove each via
`_remove_expired`, and stamp `last_cleanup`. -/
def cleanup_expired {α : Type} (s : CacheState α) (now : Nat) : CacheState α :=
  let expired_keys := (s.expiry_times.filter (fun p => decide (p.2 < now))).map Prod.fst
  let s1 := expired_keys.foldl remove_expired s
  { s1 with last_cleanup := now }

/-- `current_size` as reported by `get_stats`: `len(self.cache)`. -/
def current_size {α : Type} (s : CacheState α) : Nat :=
  s.cache.length

end LRUCache

/-! ### Decorator layer (`cache_decorators.py`)

Values stored through the decorators are arbitrary Python objects,
possibly `None`; `None` is simultaneously the default returned by
`cache.get` and the miss sentinel of the wrappers (`cached_result is not
None`).  We instantiate the cache value type with `Option V` and let
`Option.none` play Python `None`.

Wrapped computations are modelled as `Nat → Except E V`: the argument
counts how many times the computation has been invoked before, so that the
re-invocation performed by the `except` fallback of the wrappers is
observable; the third component of each wrapper's result is the total
number of invocations of the wrapped unit during that call. -/

/-- `generate_cache_key`: the key data is
`f"{func_name}:{args_str}:{kwargs_str}"`; the md5 hexdigest is modelled as
the identity on the hashed text (hashing is injective-by-intent and none
of the claims depend on its bit-level form). -/
def generate_cache_key (func_name args_str kwargs_str pref : String) : String :=
  let key_data := func_name ++ ":" ++ args_str ++ ":" ++ kwargs_str
  if pref ≠ "" then pref ++ ":" ++ key_data else key_data

/-- One call through the `cache_result(ttl, cache_type, key_prefix)`
wrapper.  `args_str` and `kwargs_str` are the deterministic renderings
`str(args)` and `str(sorted(kwargs.items()))`.  Control flow of the
source wrapper: get from cache; on a non-`None` cached value return it
without invoking the unit; otherwise invoke the unit, store the result
with `cache.set` and return it.  If the unit raises, the wrapper's
`except` block catches the exception and invokes the unit a second time
(`return func(*args, **kwargs)`), whose outcome is what the caller sees;
nothing is stored in that case (`cache.get` and `cache.set` themselves
never raise: both swallow internal errors). -/
def cache_result_call {E V : Type} (func_name args_str kwargs_str pref : String)
    (f : Nat → Except E (Option V)) (ttl : Nat) (now : Nat)
    (s : CacheState (Option V)) :
    Except E (Option V) × CacheState (Option V) × Nat :=
  let cache_key := generate_cache_key func_name args_str kwargs_str pref
  let r1 := LRUCache.get s cache_key none now
  match r1.1 with
  | some v => (Except.ok (some v), r1.2, 0)
  | none =>
    match f 0 with
    | Except.ok result =>
      (Except.ok result, (LRUCache.set r1.2 cache_key result (some ttl) now).2, 1)
    | Except.error _ => (f 1, r1.2, 2)

/-- `invalidate_cache_pattern`: the sentinel patterns `"*"` and `"all"`
clear the whole instance and report `1`; every other pattern does nothing
and reports `0`. -/
def invalidate_cache_pattern {α : Type} (pattern : String) (s : CacheState α) :
    Nat × CacheState α :=
  if pattern = "*" || pattern = "all" then (1, LRUCache.clear s)
  else (0, s)

/-- An inbound HTTP request as far as the caching layer inspects it:
method, path, query parameters, and the authenticated user id (`none`
models both an anonymous user and a request without a `user`
attribute). -/
structure Request where
  method : String
  path : String
  query : List (String × String)
  user : Option Nat
deriving Repr, DecidableEq

/-- An HTTP response: the caching layer only inspects `status_code`. -/
structure Response (V : Type) where
  status_code : Nat
  body : V
deriving Repr, DecidableEq

/-- Comparison used to model Python `sorted` on `(key, value)` string
pairs (lexicographic on the pair). -/
def pairLeB (a b : String × String) : Bool :=
  decide (a.1 < b.1) || (a.1 = b.1 && (decide (a.2 < b.2) || a.2 = b.2))

def insertPairSorted (p : String × String) :
    List (String × String) → List (String × String)
  | [] => [p]
  | q :: rest => if pairLeB p q then p :: q :: rest else q :: insertPairSorted p rest

/-- Python `sorted(request.GET.items())` (insertion sort; stable and
deterministic, which is all the key derivation needs). -/
def sortPairs : List (String × String) → List (String × String)
  | [] => []
  | p :: rest => insertPairSorted p (sortPairs rest)

/-- Deterministic rendering of a list of string pairs, modelling Python
`str([...])` of a list of tuples. -/
def reprPairs (l : List (String × String)) : String :=
  "[" ++ String.intercalate "," (l.map (fun p => "(" ++ p.1 ++ "," ++ p.2 ++ ")")) ++ "]"

/-- Deterministic rendering of a tuple of strings, modelling Python
`str(tuple(...))`. -/
def reprStrList (l : List String) : String :=
  "(" ++ String.intercalate "," l ++ ")"

/-- One call through the `cache_view(ttl, cache_type, key_prefix,
vary_by_user, vary_by_method)` wrapper.  Non-GET requests call the view
directly, before any cache structure is touched.  GET requests build the
key parts (view name, optionally the method, optionally
`user_<id>` for authenticated users, the path, the sorted query), consult
the cache, and on a miss invoke the view and store it only when
`status_code == 200`.  As in `cache_result`, a raising view is caught by
the `except` block and invoked a second time. -/
def cache_view_call {E V : Type} (view_name pref : String)
    (vary_by_user vary_by_method : Bool)
    (view : Nat → Except E (Response V)) (req : Request) (ttl now : Nat)
    (s : CacheState (Option (Response V))) :
    Except E (Response V) × CacheState (Option (Response V)) × Nat :=
  if req.method ≠ "GET" then
    match view 0 with
    | Except.ok r => (Except.ok r, s, 1)
    | Except.error _ => (view 1, s, 2)
  else
    let parts1 := [view_name] ++ (if vary_by_method then [req.method] else [])
    let parts2 := parts1 ++ (if vary_by_user then
        (match req.user with
         | some uid => ["user_" ++ toString uid]
         | none => []) else [])
    let parts3 := parts2 ++ [req.path] ++
      (if req.query.isEmpty then [] else [reprPairs (sortPairs req.query)])
    let cache_key := generate_cache_key view_name (reprStrList parts3) "[]" pref
    let r1 := LRUCache.get s cache_key none now
    match r1.1 with
    | some r => (Except.ok r, r1.2, 0)
    | none =>
      match view 0 with
      | Except.ok r =>
        let s2 := if r.status_code = 200 then
            (LRUCache.set r1.2 cache_key (some r) (some ttl) now).2
          else r1.2
        (Except.ok r, s2, 1)
      | Except.error _ => (view 1, r1.2, 2)

/-! ### Middleware layer (`cache_middleware.py`, class `CacheMiddleware`) -/

/-- One entry of the `CACHE_RULES` configuration. -/
structure CacheConfig where
  cache_type : String
  ttl : Nat
  vary_by_user : Bool
  vary_by_method : Bool
deriving Repr, DecidableEq

/-- `CacheMiddleware._generate_cache_key`: path, sorted query, optional
`user_<id>`, optional method, joined by `:`; the md5 hexdigest is again
modelled as the identity on the hashed text, and the `middleware:` tag is
prepended as in the source. -/
def middleware_cache_key (req : Request) (config : CacheConfig) : String :=
  let parts1 := [req.path] ++
    (if req.query.isEmpty then [] else [reprPairs (sortPairs req.query)])
  let parts2 := parts1 ++ (if config.vary_by_user then
      (match req.user with
       | some uid => ["user_" ++ toString uid]
       | none => []) else [])
  let parts3 := parts2 ++ (if config.vary_by_method then [req.method] else [])
  "middleware:" ++ String.intercalate ":" parts3

/-- `CacheMiddleware.process_request`.  The first component is the early
response (a cache hit); the second is the `(request._cache_key,
request._cache_config)` pair attached to the request on a miss;
the third is the cache state after the lookup.  `_get_cache_config`
(regex-rule matching) is passed in as `getConfig`. -/
def process_request {V : Type} (getConfig : String → Option CacheConfig)
    (req : Request) (s : CacheState (Option (Response V))) (now : Nat) :
    Option (Response V) × Option (String × CacheConfig) × CacheState (Option (Response V)) :=
  if req.method ≠ "GET" then (none, none, s)
  else
    match getConfig req.path with
    | none => (none, none, s)
    | some config =>
      let cache_key := middleware_cache_key req config
      let r1 := LRUCache.get s cache_key none now
      match r1.1 with
      | some r => (some r, none, r1.2)
      | none => (none, some (cache_key, config), r1.2)

/-- `CacheMiddleware.process_response`: without cache info attached by
`process_request` the response passes through untouched; with it, only a
`status_code == 200` response is stored. -/
def process_response {V : Type} (info : Option (String × CacheConfig))
    (resp : Response V) (s : CacheState (Option (Response V))) (now : Nat) :
    Response V × CacheState (Option (Response V)) :=
  match info with
  | none => (resp, s)
  | some (cache_key, config) =>
    if resp.status_code = 200 then
      (resp, (LRUCache.set s cache_key (some resp) (some config.ttl) now).2)
    else (resp, s)

/-- A whole request passing through `CacheMiddleware`: `process_request`,
then (unless a cached response short-circuits the view) the view itself,
then `process_response`.  On a hit the framework still runs
`process_response`, but no cache info is attached to the request, so it
passes the response through unchanged. -/
def middleware_handle {V : Type} (getConfig : String → Option CacheConfig)
    (view : Request → Response V) (req : Request)
    (s : CacheState (Option (Response V))) (now : Nat) :
    Response V × CacheState (Option (Response V)) :=
  match process_request getConfig req s now with
  | (some r, _, s1) => (r, s1)
  | (none, info, s1) => process_response info (view req) s1 now

/-! ### Operation traces

A `CacheOp` is one foreground or background operation on a single cache
instance, with the clock value it observes; `run` folds a list of them
over a state.  `grun` additionally maintains a ghost recency map
`tch : String → Nat` recording, for each key, the index of the last
`set`/`get` operation that touched it (exactly the events that move an
entry to the most-recently-used position). -/

inductive CacheOp (α : Type) where
  | setOp (key : String) (value : α) (ttl : Option Nat) (now : Nat)
  | getOp (key : String) (default : α) (now : Nat)
  | existsOp (key : String) (now : Nat)
  | deleteOp (key : String)
  | clearOp
  | cleanupOp (now : Nat)

def applyOp {α : Type} (s : CacheState α) : CacheOp α → CacheState α
  | .setOp k v ttl now => (LRUCache.set s k v ttl now).2
  | .getOp k d now => (LRUCache.get s k d now).2
  | .existsOp k now => (LRUCache.existsKey s k now).2
  | .deleteOp k => (LRUCache.delete s k).2
  | .clearOp => LRUCache.clear s
  | .cleanupOp now => LRUCache.cleanup_expired s now

def run {α : Type} (s : CacheState α) (ops : List (CacheOp α)) : CacheState α :=
  ops.foldl applyOp s

/-- Ghost update of the recency map at operation index `i`: a `set`
stamps its key, a `get` stamps its key exactly when it is a hit (present
and unexpired); nothing else alters recency. -/
def touchUpd {α : Type} (tch : String → Nat) (i : Nat) (s : CacheState α) :
    CacheOp α → String → Nat
  | .setOp k _ _ _ => fun x => if x = k then i else tch x
  | .getOp k _ now =>
    if containsKey s.cache k && !LRUCache.is_expired s k now then
      fun x => if x = k then i else tch x
    else tch
  | _ => tch

/-- `run` instrumented with the ghost recency map and operation index. -/
def grun {α : Type} : List (CacheOp α) → CacheState α → (String → Nat) → Nat →
    CacheState α × (String → Nat) × Nat
  | [], s, tch, i => (s, tch, i)
  | op :: ops, s, tch, i => grun ops (applyOp s op) (touchUpd tch i s op) (i + 1)

/-! ### Structural invariants -/

/-- Well-formedness: both maps have pairwise-distinct keys (they model
Python dicts) and hold exactly the same key set — the invariant of the
claim C4. -/
def WF {α : Type} (s : CacheState α) : Prop :=
  (keysOf s.cache).Nodup ∧ (keysOf s.expiry_times).Nodup ∧
    (∀ k ∈ keysOf s.cache, k ∈ keysOf s.expiry_times) ∧
    (∀ k ∈ keysOf s.expiry_times, k ∈ keysOf s.cache)

instance {α : Type} (s : CacheState α) : Decidable (WF s) := by
  unfold WF
  infer_instance

theorem WF.mem_iff {α : Type} {s : CacheState α} (h : WF s) (k : String) :
    k ∈ keysOf s.cache ↔ k ∈ keysOf s.expiry_times :=
  ⟨h.2.2.1 k, h.2.2.2 k⟩

theorem wf_init (α : Type) (N dttl t0 : Nat) : WF (LRUCache.init α N dttl t0) := by
  constructor <;> simp [LRUCache.init, keysOf]

theorem containsKey_eq_true_iff {β : Type} (l : List (String × β)) (k : String) :
    containsKey l k = true ↔ k ∈ keysOf l :=
  containsKey_iff_mem_keysOf l k

theorem containsKey_eq_false_iff {β : Type} (l : List (String × β)) (k : String) :
    containsKey l k = false ↔ k ∉ keysOf l := by
  rw [← containsKey_iff_mem_keysOf]
  cases h : containsKey l k <;> simp

theorem wf_remove_expired {α : Type} {s : CacheState α} (h : WF s) (key : String) :
    WF (LRUCache.remove_expired s key) := by
  obtain ⟨hndc, hnde, hce, hec⟩ := h
  unfold LRUCache.remove_expired
  by_cases hc : containsKey s.cache key
  · have hmc : key ∈ keysOf s.cache := (containsKey_eq_true_iff _ _).1 hc
    have hme : key ∈ keysOf s.expiry_times := hce key hmc
    have he : containsKey s.expiry_times key = true := (containsKey_eq_true_iff _ _).2 hme
    refine ⟨?_, ?_, ?_, ?_⟩ <;> simp only [hc, he, if_true]
    · exact keysOf_eraseKey_nodup key _ hndc
    · exact keysOf_eraseKey_nodup key _ hnde
    · intro x hx
      rw [mem_keysOf_eraseKey_iff key x _ hndc] at hx
      rw [mem_keysOf_eraseKey_iff key x _ hnde]
      exact ⟨hce x hx.1, hx.2⟩
    · intro x hx
      rw [mem_keysOf_eraseKey_iff key x _ hnde] at hx
      rw [mem_keysOf_eraseKey_iff key x _ hndc]
      exact ⟨hec x hx.1, hx.2⟩
  · simp only [Bool.not_eq_true] at hc
    simp [hc]
    exact ⟨hndc, hnde, hce, hec⟩

theorem remove_expired_cache_sublist {α : Type} (s : CacheState α) (key : String) :
    List.Sublist (LRUCache.remove_expired s key).cache s.cache := by
  unfold LRUCache.remove_expired
  by_cases hc : containsKey s.cache key <;>
    by_cases he : containsKey s.expiry_times key <;>
      simp [hc, he, eraseKey_sublist, List.Sublist.refl]

theorem remove_expired_expiry_sublist {α : Type} (s : CacheState α) (key : String) :
    List.Sublist (LRUCache.remove_expired s key).expiry_times s.expiry_times := by
  unfold LRUCache.remove_expired
  by_cases hc : containsKey s.cache key <;>
    by_cases he : containsKey s.expiry_times key <;>
      simp [hc, he, eraseKey_sublist, List.Sublist.refl]

theorem wf_evict_lru {α : Type} {s : CacheState α} (h : WF s) :
    WF (LRUCache.evict_lru s) := by
  obtain ⟨hndc, hnde, hce, hec⟩ := h
  unfold LRUCache.evict_lru
  cases hc : s.cache with
  | nil => exact ⟨hndc, hnde, hce, hec⟩
  | cons p rest =>
    obtain ⟨k, v⟩ := p
    rw [hc] at hndc hce hec
    simp only [keysOf_cons, List.nodup_cons] at hndc
    have hmem : k ∈ keysOf s.expiry_times := hce k (by simp)
    have he : containsKey s.expiry_times k = true := (containsKey_eq_true_iff _ _).2 hmem
    refine ⟨hndc.2, ?_, ?_, ?_⟩ <;> simp only [he, if_true]
    · exact keysOf_eraseKey_nodup k _ hnde
    · intro x hx
      rw [mem_keysOf_eraseKey_iff k x _ hnde]
      refine ⟨hce x (by simp [hx]), ?_⟩
      intro hxk
      exact hndc.1 (hxk ▸ hx)
    · intro x hx
      rw [mem_keysOf_eraseKey_iff k x _ hnde] at hx
      have := hec x hx.1
      simp only [keysOf_cons, List.mem_cons] at this
      rcases this with h1 | h1
      · exact absurd h1 hx.2
      · exact h1

theorem evict_lru_cache_eq_tail {α : Type} (s : CacheState α) :
    (LRUCache.evict_lru s).cache = s.cache.tail := by
  unfold LRUCache.evict_lru
  rcases hc : s.cache with _ | ⟨⟨k, v⟩, rest⟩ <;> simp [hc]

theorem evict_lru_cache_tail {α : Type} (s : CacheState α) :
    List.Sublist (LRUCache.evict_lru s).cache s.cache := by
  rw [evict_lru_cache_eq_tail]
  exact List.tail_sublist _

theorem evict_lru_expiry_sublist {α : Type} (s : CacheState α) :
    List.Sublist (LRUCache.evict_lru s).expiry_times s.expiry_times := by
  unfold LRUCache.evict_lru
  rcases hc : s.cache with _ | ⟨⟨k, v⟩, rest⟩
  · simp only [hc]
    exact List.Sublist.refl _
  · simp only [hc]
    by_cases he : containsKey s.expiry_times k
    · simp only [he, if_true]
      exact eraseKey_sublist k _
    · simp only [he, if_false]
      exact List.Sublist.refl _

theorem evict_lru_max_size {α : Type} (s : CacheState α) :
    (LRUCache.evict_lru s).max_size = s.max_size := by
  unfold LRUCache.evict_lru
  rcases hc : s.cache with _ | ⟨⟨k, v⟩, rest⟩ <;> simp [hc]

theorem wf_evictSteps {α : Type} (fuel : Nat) {s : CacheState α} (h : WF s) :
    WF (LRUCache.evictSteps fuel s).1 := by
  induction fuel generalizing s with
  | zero => exact h
  | succ n ih =>
    unfold LRUCache.evictSteps
    by_cases hle : s.max_size ≤ s.cache.length
    · simp only [hle, if_true]
      rcases hc : s.cache with _ | ⟨⟨k, v⟩, rest⟩
      · simp only [hc]
        exact h
      · simp only [hc]
        exact ih (wf_evict_lru h)
    · simp only [hle, if_false]
      exact h

theorem evictSteps_cache_sublist {α : Type} (fuel : Nat) (s : CacheState α) :
    List.Sublist (LRUCache.evictSteps fuel s).1.cache s.cache := by
  induction fuel generalizing s with
  | zero => exact List.Sublist.refl _
  | succ n ih =>
    unfold LRUCache.evictSteps
    by_cases hle : s.max_size ≤ s.cache.length
    · simp only [hle, if_true]
      rcases hc : s.cache with _ | ⟨⟨k, v⟩, rest⟩
      · simp only [hc]
        exact List.Sublist.refl _
      · simp only [hc]
        rw [← hc]
        exact List.Sublist.trans (ih (LRUCache.evict_lru s)) (evict_lru_cache_tail s)
    · simp only [hle, if_false]
      exact List.Sublist.refl _

theorem evictSteps_expiry_sublist {α : Type} (fuel : Nat) (s : CacheState α) :
    List.Sublist (LRUCache.evictSteps fuel s).1.expiry_times s.expiry_times := by
  induction fuel generalizing s with
  | zero => exact List.Sublist.refl _
  | succ n ih =>
    unfold LRUCache.evictSteps
    by_cases hle : s.max_size ≤ s.cache.length
    · simp only [hle, if_true]
      rcases hc : s.cache with _ | ⟨⟨k, v⟩, rest⟩
      · simp only [hc]
        exact List.Sublist.refl _
      · simp only [hc]
        exact List.Sublist.trans (ih (LRUCache.evict_lru s)) (evict_lru_expiry_sublist s)
    · simp only [hle, if_false]
      exact List.Sublist.refl _

theorem evictSteps_max_size {α : Type} (fuel : Nat) (s : CacheState α) :
    (LRUCache.evictSteps fuel s).1.max_size = s.max_size := by
  induction fuel generalizing s with
  | zero => rfl
  | succ n ih =>
    unfold LRUCache.evictSteps
    by_cases hle : s.max_size ≤ s.cache.length
    · simp only [hle, if_true]
      rcases hc : s.cache with _ | ⟨⟨k, v⟩, rest⟩
      · simp only [hc]
      · simp only [hc]
        rw [ih (LRUCache.evict_lru s), evict_lru_max_size]
    · simp only [hle, if_false]

theorem wf_removeExisting {α : Type} {s : CacheState α} (h : WF s) (key : String) :
    WF (LRUCache.removeExisting s key) := by
  obtain ⟨hndc, hnde, hce, hec⟩ := h
  unfold LRUCache.removeExisting
  by_cases hc : containsKey s.cache key
  · simp only [hc, if_true]
    refine ⟨keysOf_eraseKey_nodup key _ hndc, keysOf_eraseKey_nodup key _ hnde, ?_, ?_⟩
    · intro x hx
      rw [mem_keysOf_eraseKey_iff key x _ hndc] at hx
      rw [mem_keysOf_eraseKey_iff key x _ hnde]
      exact ⟨hce x hx.1, hx.2⟩
    · intro x hx
      rw [mem_keysOf_eraseKey_iff key x _ hnde] at hx
      rw [mem_keysOf_eraseKey_iff key x _ hndc]
      exact ⟨hec x hx.1, hx.2⟩
  · simp only [hc]
    simp only [Bool.not_eq_true] at hc
    simp [hc]
    exact ⟨hndc, hnde, hce, hec⟩

theorem removeExisting_key_not_mem {α : Type} {s : CacheState α}
    (hndc : (keysOf s.cache).Nodup) (key : String) :
    key ∉ keysOf (LRUCache.removeExisting s key).cache := by
  unfold LRUCache.removeExisting
  by_cases hc : containsKey s.cache key
  · simp only [hc, if_true]
    exact not_mem_keysOf_eraseKey key _ hndc
  · simp only [hc]
    simp only [Bool.not_eq_true] at hc
    simp only [hc, Bool.false_eq_true, if_false]
    exact fun hmem => by
      rw [← containsKey_eq_true_iff] at hmem
      rw [hmem] at hc
      cases hc

theorem removeExisting_cache_sublist {α : Type} (s : CacheState α) (key : String) :
    List.Sublist (LRUCache.removeExisting s key).cache s.cache := by
  unfold LRUCache.removeExisting
  by_cases hc : containsKey s.cache key <;> simp [hc, eraseKey_sublist]

theorem removeExisting_max_size {α : Type} (s : CacheState α) (key : String) :
    (LRUCache.removeExisting s key).max_size = s.max_size := by
  unfold LRUCache.removeExisting
  by_cases hc : containsKey s.cache key <;> simp [hc]

theorem wf_set {α : Type} {s : CacheState α} (h : WF s) (key : String) (v : α)
    (ttl : Option Nat) (now : Nat) : WF (LRUCache.set s key v ttl now).2 := by
  have hcond : (containsKey s.cache key && !containsKey s.expiry_times key) = false := by
    by_cases hc : containsKey s.cache key = true
    · have hme := h.2.2.1 key ((containsKey_eq_true_iff _ _).1 hc)
      have he := (containsKey_eq_true_iff _ _).2 hme
      simp [hc, he]
    · have hc' : containsKey s.cache key = false := by
        cases hb : containsKey s.cache key
        · rfl
        · exact absurd hb hc
      simp [hc']
  have hwf1 : WF (LRUCache.removeExisting s key) := wf_removeExisting h key
  have hwf2 : WF (LRUCache.evictWhile (LRUCache.removeExisting s key)).1 :=
    wf_evictSteps _ hwf1
  have hknc1 : key ∉ keysOf (LRUCache.removeExisting s key).cache :=
    removeExisting_key_not_mem h.1 key
  have hknc2 : key ∉ keysOf (LRUCache.evictWhile (LRUCache.removeExisting s key)).1.cache := by
    intro hmem
    exact hknc1 ((keysOf_sublist_of_sublist (evictSteps_cache_sublist _ _)).mem hmem)
  have hkne2 : key ∉ keysOf (LRUCache.evictWhile (LRUCache.removeExisting s key)).1.expiry_times := by
    intro hmem
    exact hknc2 (hwf2.2.2.2 key hmem)
  unfold LRUCache.set
  simp only [hcond, Bool.false_eq_true, if_false]
  rw [setAssoc_of_not_mem key _ _ hkne2]
  obtain ⟨h2ndc, h2nde, h2ce, h2ec⟩ := hwf2
  refine ⟨?_, ?_, ?_, ?_⟩
  · simp only [keysOf_append, keysOf_cons, keysOf_nil]
    rw [List.nodup_append]
    refine ⟨h2ndc, List.nodup_singleton key, ?_⟩
    intro a ha hb
    simp only [List.mem_singleton] at hb
    subst hb
    exact hknc2 ha
  · simp only [keysOf_append, keysOf_cons, keysOf_nil]
    rw [List.nodup_append]
    refine ⟨h2nde, List.nodup_singleton key, ?_⟩
    intro a ha hb
    simp only [List.mem_singleton] at hb
    subst hb
    exact hkne2 ha
  · intro x hx
    simp only [keysOf_append, keysOf_cons, keysOf_nil, List.mem_append,
      List.mem_singleton] at hx ⊢
    rcases hx with hx | hx
    · exact Or.inl (h2ce x hx)
    · exact Or.inr hx
  · intro x hx
    simp only [keysOf_append, keysOf_cons, keysOf_nil, List.mem_append,
      List.mem_singleton] at hx ⊢
    rcases hx with hx | hx
    · exact Or.inl (h2ec x hx)
    · exact Or.inr hx

theorem wf_get {α : Type} {s : CacheState α} (h : WF s) (key : String) (d : α)
    (now : Nat) : WF (LRUCache.get s key d now).2 := by
  obtain ⟨hndc, hnde, hce, hec⟩ := h
  unfold LRUCache.get
  cases hl : lookupKey s.cache key with
  | none =>
    exact ⟨hndc, hnde, hce, hec⟩
  | some v =>
    by_cases hexp : LRUCache.is_expired s key now
    · simp only [hexp, if_true]
      exact wf_remove_expired ⟨hndc, hnde, hce, hec⟩ key
    · simp only [hexp, Bool.false_eq_true, if_false]
      have hkc : key ∈ keysOf s.cache := by
        rw [← lookupKey_isSome_iff_mem_keysOf]
        simp [hl]
      refine ⟨?_, hnde, ?_, ?_⟩
      · simp only [keysOf_append, keysOf_cons, keysOf_nil]
        rw [List.nodup_append]
        refine ⟨keysOf_eraseKey_nodup key _ hndc, List.nodup_singleton key, ?_⟩
        intro a ha hb
        simp only [List.mem_singleton] at hb
        exact not_mem_keysOf_eraseKey key _ hndc (hb ▸ ha)
      · intro x hx
        simp only [keysOf_append, keysOf_cons, keysOf_nil, List.mem_append,
          List.mem_singleton] at hx
        rcases hx with hx | hx
        · exact hce x ((mem_keysOf_eraseKey_iff key x _ hndc).1 hx).1
        · exact hce x (hx ▸ hkc)
      · intro x hx
        simp only [keysOf_append, keysOf_cons, keysOf_nil, List.mem_append,
          List.mem_singleton]
        by_cases hxk : x = key
        · exact Or.inr hxk
        · exact Or.inl ((mem_keysOf_eraseKey_iff key x _ hndc).2 ⟨hec x hx, hxk⟩)

theorem wf_existsKey {α : Type} {s : CacheState α} (h : WF s) (key : String)
    (now : Nat) : WF (LRUCache.existsKey s key now).2 := by
  unfold LRUCache.existsKey
  by_cases hc : containsKey s.cache key
  · by_cases hexp : LRUCache.is_expired s key now
    · simp only [hc, hexp, if_true]
      exact wf_remove_expired h key
    · simp only [hc, hexp, Bool.false_eq_true, if_false, if_true]
      exact h
  · simp only [hc]
    simp only [Bool.not_eq_true] at hc
    simp only [hc, Bool.false_eq_true, if_false]
    exact h

theorem wf_delete {α : Type} {s : CacheState α} (h : WF s) (key : String) :
    WF (LRUCache.delete s key).2 := by
  obtain ⟨hndc, hnde, hce, hec⟩ := h
  unfold LRUCache.delete
  by_cases hc : containsKey s.cache key
  · have hme : key ∈ keysOf s.expiry_times := hce key ((containsKey_eq_true_iff _ _).1 hc)
    have he : containsKey s.expiry_times key = true := (containsKey_eq_true_iff _ _).2 hme
    simp only [hc, he, if_true]
    refine ⟨keysOf_eraseKey_nodup key _ hndc, keysOf_eraseKey_nodup key _ hnde, ?_, ?_⟩
    · intro x hx
      rw [mem_keysOf_eraseKey_iff key x _ hndc] at hx
      rw [mem_keysOf_eraseKey_iff key x _ hnde]
      exact ⟨hce x hx.1, hx.2⟩
    · intro x hx
      rw [mem_keysOf_eraseKey_iff key x _ hnde] at hx
      rw [mem_keysOf_eraseKey_iff key x _ hndc]
      exact ⟨hec x hx.1, hx.2⟩
  · simp only [hc]
    simp only [Bool.not_eq_true] at hc
    simp only [hc, Bool.false_eq_true, if_false]
    exact ⟨hndc, hnde, hce, hec⟩

theorem wf_clear {α : Type} (s : CacheState α) : WF (LRUCache.clear s) := by
  refine ⟨?_, ?_, ?_, ?_⟩ <;> simp [LRUCache.clear]

theorem wf_fold_remove_expired {α : Type} (ks : List String) {s : CacheState α}
    (h : WF s) : WF (ks.foldl LRUCache.remove_expired s) := by
  induction ks generalizing s with
  | nil => exact h
  | cons k ks ih => exact ih (wf_remove_expired h k)

theorem wf_cleanup_expired {α : Type} {s : CacheState α} (h : WF s) (now : Nat) :
    WF (LRUCache.cleanup_expired s now) := by
  unfold LRUCache.cleanup_expired
  exact wf_fold_remove_expired _ h

theorem wf_applyOp {α : Type} {s : CacheState α} (h : WF s) (op : CacheOp α) :
    WF (applyOp s op) := by
  cases op with
  | setOp k v ttl now => exact wf_set h k v ttl now
  | getOp k d now => exact wf_get h k d now
  | existsOp k now => exact wf_existsKey h k now
  | deleteOp k => exact wf_delete h k
  | clearOp => exact wf_clear s
  | cleanupOp now => exact wf_cleanup_expired h now

theorem wf_run {α : Type} (ops : List (CacheOp α)) {s : CacheState α} (h : WF s) :
    WF (run s ops) := by
  induction ops generalizing s with
  | nil => exact h
  | cons op ops ih => exact ih (wf_applyOp h op)

/-! ### Size bound and `max_size` preservation -/

theorem eraseKey_length_le {β : Type} (k : String) (l : List (String × β)) :
    (eraseKey k l).length ≤ l.length :=
  (eraseKey_sublist k l).length_le

theorem eraseKey_length_of_mem {β : Type} (k : String) (l : List (String × β))
    (h : k ∈ keysOf l) : (eraseKey k l).length + 1 = l.length := by
  induction l with
  | nil => simp at h
  | cons p rest ih =>
    obtain ⟨k1, v⟩ := p
    by_cases he : k1 = k
    · simp [he]
    · simp only [keysOf_cons, List.mem_cons] at h
      rcases h with h | h
      · exact absurd h.symm he
      · simp [he, ih h]

theorem evictSteps_length_lt {α : Type} (fuel : Nat) {s : CacheState α}
    (h1 : 1 ≤ s.max_size) (hf : s.cache.length ≤ fuel) :
    (LRUCache.evictSteps fuel s).1.cache.length < s.max_size := by
  induction fuel generalizing s with
  | zero =>
    have h0 : s.cache.length = 0 := Nat.le_zero.1 hf
    unfold LRUCache.evictSteps
    show s.cache.length < s.max_size
    omega
  | succ n ih =>
    unfold LRUCache.evictSteps
    by_cases hle : s.max_size ≤ s.cache.length
    · simp only [hle, if_true]
      rcases hc : s.cache with _ | ⟨⟨k, v⟩, rest⟩
      · simp only [hc]
        rw [hc] at hle
        simp at hle
        simp only [List.length_nil]
        omega
      · simp only [hc]
        have hrec := ih (s := LRUCache.evict_lru s)
          (by rw [evict_lru_max_size]; exact h1)
          (by
            rw [evict_lru_cache_eq_tail, hc]
            rw [hc] at hf
            simp at hf ⊢
            omega)
        rw [evict_lru_max_size] at hrec
        exact hrec
    · simp only [hle, if_false]
      omega

theorem set_cache_length_le {α : Type} {s : CacheState α} (h1 : 1 ≤ s.max_size)
    (h2 : s.cache.length ≤ s.max_size) (key : String) (v : α) (ttl : Option Nat)
    (now : Nat) : (LRUCache.set s key v ttl now).2.cache.length ≤ s.max_size := by
  unfold LRUCache.set
  by_cases hcond : (containsKey s.cache key && !containsKey s.expiry_times key) = true
  · simp only [hcond, if_true]
    exact le_trans (eraseKey_length_le key s.cache) h2
  · have hcond' : (containsKey s.cache key && !containsKey s.expiry_times key) = false := by
      cases hb : (containsKey s.cache key && !containsKey s.expiry_times key)
      · rfl
      · exact absurd hb hcond
    simp only [hcond', Bool.false_eq_true, if_false, List.length_append,
      List.length_cons, List.length_nil]
    have hlt : (LRUCache.evictWhile (LRUCache.removeExisting s key)).1.cache.length <
        (LRUCache.removeExisting s key).max_size := by
      unfold LRUCache.evictWhile
      exact evictSteps_length_lt _
        (by rw [removeExisting_max_size]; exact h1) (le_refl _)
    rw [removeExisting_max_size] at hlt
    omega

theorem remove_expired_max_size {α : Type} (s : CacheState α) (key : String) :
    (LRUCache.remove_expired s key).max_size = s.max_size := by
  unfold LRUCache.remove_expired
  by_cases hc : containsKey s.cache key <;>
    by_cases he : containsKey s.expiry_times key <;> simp [hc, he]

theorem set_max_size {α : Type} (s : CacheState α) (key : String) (v : α)
    (ttl : Option Nat) (now : Nat) :
    (LRUCache.set s key v ttl now).2.max_size = s.max_size := by
  unfold LRUCache.set
  by_cases hcond : (containsKey s.cache key && !containsKey s.expiry_times key) = true
  · simp [hcond]
  · have hcond' : (containsKey s.cache key && !containsKey s.expiry_times key) = false := by
      cases hb : (containsKey s.cache key && !containsKey s.expiry_times key)
      · rfl
      · exact absurd hb hcond
    simp only [hcond', Bool.false_eq_true, if_false]
    show (LRUCache.evictWhile (LRUCache.removeExisting s key)).1.max_size = s.max_size
    unfold LRUCache.evictWhile
    rw [evictSteps_max_size, removeExisting_max_size]

theorem get_max_size {α : Type} (s : CacheState α) (key : String) (d : α) (now : Nat) :
    (LRUCache.get s key d now).2.max_size = s.max_size := by
  unfold LRUCache.get
  cases hl : lookupKey s.cache key with
  | none => rfl
  | some v =>
    by_cases hexp : LRUCache.is_expired s key now
    · simp only [hexp, if_true]
      exact remove_expired_max_size s key
    · simp [hexp]

theorem existsKey_max_size {α : Type} (s : CacheState α) (key : String) (now : Nat) :
    (LRUCache.existsKey s key now).2.max_size = s.max_size := by
  unfold LRUCache.existsKey
  by_cases hc : containsKey s.cache key
  · by_cases hexp : LRUCache.is_expired s key now
    · simp only [hc, hexp, if_true]
      exact remove_expired_max_size s key
    · simp [hc, hexp]
  · simp [hc]

theorem delete_max_size {α : Type} (s : CacheState α) (key : String) :
    (LRUCache.delete s key).2.max_size = s.max_size := by
  unfold LRUCache.delete
  by_cases hc : containsKey s.cache key <;> simp [hc]

theorem fold_remove_expired_max_size {α : Type} (ks : List String) (s : CacheState α) :
    (ks.foldl LRUCache.remove_expired s).max_size = s.max_size := by
  induction ks generalizing s with
  | nil => rfl
  | cons k ks ih => rw [List.foldl_cons, ih, remove_expired_max_size]

theorem cleanup_expired_max_size {α : Type} (s : CacheState α) (now : Nat) :
    (LRUCache.cleanup_expired s now).max_size = s.max_size := by
  unfold LRUCache.cleanup_expired
  exact fold_remove_expired_max_size _ s

theorem applyOp_max_size {α : Type} (s : CacheState α) (op : CacheOp α) :
    (applyOp s op).max_size = s.max_size := by
  cases op with
  | setOp k v ttl now => exact set_max_size s k v ttl now
  | getOp k d now => exact get_max_size s k d now
  | existsOp k now => exact existsKey_max_size s k now
  | deleteOp k => exact delete_max_size s k
  | clearOp => rfl
  | cleanupOp now => exact cleanup_expired_max_size s now

theorem run_max_size {α : Type} (ops : List (CacheOp α)) (s : CacheState α) :
    (run s ops).max_size = s.max_size := by
  induction ops generalizing s with
  | nil => rfl
  | cons op ops ih =>
    show (run (applyOp s op) ops).max_size = s.max_size
    rw [ih, applyOp_max_size]

theorem fold_remove_expired_cache_sublist {α : Type} (ks : List String) (s : CacheState α) :
    List.Sublist ((ks.foldl LRUCache.remove_expired s).cache) s.cache := by
  induction ks generalizing s with
  | nil => exact List.Sublist.refl _
  | cons k ks ih =>
    exact List.Sublist.trans (ih (LRUCache.remove_expired s k))
      (remove_expired_cache_sublist s k)

theorem get_cache_length_le {α : Type} (s : CacheState α) (key : String) (d : α)
    (now : Nat) : (LRUCache.get s key d now).2.cache.length ≤ s.cache.length := by
  unfold LRUCache.get
  cases hl : lookupKey s.cache key with
  | none => exact le_refl _
  | some v =>
    by_cases hexp : LRUCache.is_expired s key now
    · simp only [hexp, if_true]
      exact (remove_expired_cache_sublist s key).length_le
    · simp only [hexp, Bool.false_eq_true, if_false, List.length_append,
        List.length_cons, List.length_nil]
      have hkc : key ∈ keysOf s.cache := by
        rw [← lookupKey_isSome_iff_mem_keysOf]
        simp [hl]
      have := eraseKey_length_of_mem key s.cache hkc
      omega

theorem applyOp_cache_length_le {α : Type} {s : CacheState α} (h1 : 1 ≤ s.max_size)
    (h2 : s.cache.length ≤ s.max_size) (op : CacheOp α) :
    (applyOp s op).cache.length ≤ s.max_size := by
  cases op with
  | setOp k v ttl now => exact set_cache_length_le h1 h2 k v ttl now
  | getOp k d now => exact le_trans (get_cache_length_le s k d now) h2
  | existsOp k now =>
    refine le_trans (List.Sublist.length_le ?_) h2
    show List.Sublist (LRUCache.existsKey s k now).2.cache s.cache
    unfold LRUCache.existsKey
    by_cases hc : containsKey s.cache k
    · by_cases hexp : LRUCache.is_expired s k now
      · simp only [hc, hexp, if_true]
        exact remove_expired_cache_sublist s k
      · simp only [hc, hexp, Bool.false_eq_true, if_false, if_true]
        exact List.Sublist.refl _
    · simp only [hc]
      simp only [Bool.not_eq_true] at hc
      simp only [hc, Bool.false_eq_true, if_false]
      exact List.Sublist.refl _
  | deleteOp k =>
    refine le_trans (List.Sublist.length_le ?_) h2
    show List.Sublist (LRUCache.delete s k).2.cache s.cache
    unfold LRUCache.delete
    by_cases hc : containsKey s.cache k
    · simp only [hc, if_true]
      exact eraseKey_sublist k s.cache
    · simp only [hc]
      simp only [Bool.not_eq_true] at hc
      simp only [hc, Bool.false_eq_true, if_false]
      exact List.Sublist.refl _
  | clearOp =>
    simp [LRUCache.clear, applyOp]
  | cleanupOp now =>
    refine le_trans (List.Sublist.length_le ?_) h2
    show List.Sublist (LRUCache.cleanup_expired s now).cache s.cache
    unfold LRUCache.cleanup_expired
    exact fold_remove_expired_cache_sublist _ s

theorem run_cache_length_le {α : Type} (ops : List (CacheOp α)) {s : CacheState α}
    (h1 : 1 ≤ s.max_size) (h2 : s.cache.length ≤ s.max_size) :
    (run s ops).cache.length ≤ s.max_size := by
  induction ops generalizing s with
  | nil => exact h2
  | cons op ops ih =>
    show (run (applyOp s op) ops).cache.length ≤ s.max_size
    rw [← applyOp_max_size s op]
    exact ih (by rw [applyOp_max_size]; exact h1)
      (by rw [applyOp_max_size]; exact applyOp_cache_length_le h1 h2 op)

/-- Characterization of the eviction loop: with enough fuel it drops
exactly the first `length + 1 - max_size` entries (none when below
capacity) and reports their keys in order. -/
theorem evictSteps_spec {α : Type} (fuel : Nat) {s : CacheState α}
    (h1 : 1 ≤ s.max_size) (hf : s.cache.length ≤ fuel) :
    (LRUCache.evictSteps fuel s).1.cache =
      s.cache.drop (s.cache.length + 1 - s.max_size) ∧
    (LRUCache.evictSteps fuel s).2 =
      (keysOf s.cache).take (s.cache.length + 1 - s.max_size) := by
  induction fuel generalizing s with
  | zero =>
    have h0 : s.cache.length = 0 := Nat.le_zero.1 hf
    have hm : s.cache.length + 1 - s.max_size = 0 := by omega
    unfold LRUCache.evictSteps
    rw [hm]
    constructor
    · show s.cache = s.cache.drop 0
      simp
    · show ([] : List String) = (keysOf s.cache).take 0
      simp
  | succ n ih =>
    unfold LRUCache.evictSteps
    by_cases hle : s.max_size ≤ s.cache.length
    · simp only [hle, if_true]
      rcases hc : s.cache with _ | ⟨⟨k, v⟩, rest⟩
      · rw [hc] at hle
        simp at hle
        omega
      · simp only [hc]
        have hml : (LRUCache.evict_lru s).max_size = s.max_size := evict_lru_max_size s
        have hcl : (LRUCache.evict_lru s).cache = rest := by
          rw [evict_lru_cache_eq_tail, hc]
          rfl
        have hlen : rest.length ≤ n := by
          rw [hc] at hf
          simp at hf
          omega
        have hrec := ih (s := LRUCache.evict_lru s)
          (by rw [hml]; exact h1) (by rw [hcl]; exact hlen)
        rw [hcl, hml] at hrec
        have hm : ((k, v) :: rest).length + 1 - s.max_size =
            (rest.length + 1 - s.max_size) + 1 := by
          rw [hc] at hle
          simp only [List.length_cons] at hle ⊢
          omega
        constructor
        · show (LRUCache.evictSteps n (LRUCache.evict_lru s)).1.cache =
            ((k, v) :: rest).drop (((k, v) :: rest).length + 1 - s.max_size)
          rw [hrec.1, hm, List.drop_succ_cons]
        · show k :: (LRUCache.evictSteps n (LRUCache.evict_lru s)).2 =
            (keysOf ((k, v) :: rest)).take (((k, v) :: rest).length + 1 - s.max_size)
          rw [hrec.2, hm, keysOf_cons, List.take_succ_cons]
    · simp only [hle, if_false]
      have hm : s.cache.length + 1 - s.max_size = 0 := by omega
      rw [hm]
      simp

/-! ### Recency invariant

`TouchInv tch i s` says the ordered entry map is strictly sorted by the
ghost recency map `tch` (so its first entry is the least recently touched)
and every resident entry was last touched before the current operation
index `i`. -/

def TouchInv {α : Type} (tch : String → Nat) (i : Nat) (s : CacheState α) : Prop :=
  s.cache.Pairwise (fun a b => tch a.1 < tch b.1) ∧ ∀ p ∈ s.cache, tch p.1 < i

theorem touchInv_init (α : Type) (N dttl t0 i : Nat) (tch : String → Nat) :
    TouchInv tch i (LRUCache.init α N dttl t0) := by
  constructor
  · simp [LRUCache.init]
  · intro p hp
    simp [LRUCache.init] at hp

theorem existsKey_cache_sublist {α : Type} (s : CacheState α) (key : String)
    (now : Nat) : List.Sublist (LRUCache.existsKey s key now).2.cache s.cache := by
  unfold LRUCache.existsKey
  by_cases hc : containsKey s.cache key
  · by_cases hexp : LRUCache.is_expired s key now
    · simp only [hc, hexp, if_true]
      exact remove_expired_cache_sublist s key
    · simp only [hc, hexp, Bool.false_eq_true, if_false, if_true]
      exact List.Sublist.refl _
  · simp only [hc]
    simp only [Bool.not_eq_true] at hc
    simp only [hc, Bool.false_eq_true, if_false]
    exact List.Sublist.refl _

theorem delete_cache_sublist {α : Type} (s : CacheState α) (key : String) :
    List.Sublist (LRUCache.delete s key).2.cache s.cache := by
  unfold LRUCache.delete
  by_cases hc : containsKey s.cache key
  · simp only [hc, if_true]
    exact eraseKey_sublist key s.cache
  · simp only [hc]
    simp only [Bool.not_eq_true] at hc
    simp only [hc, Bool.false_eq_true, if_false]
    exact List.Sublist.refl _

/-- `LRUCache.set` under well-formedness: the `KeyError` branch is
unreachable, so a `set` is exactly self-removal, the eviction loop, and
the insertion at the most-recently-used position. -/
theorem set_eq_of_wf {α : Type} {s : CacheState α} (h : WF s) (key : String)
    (v : α) (ttl : Option Nat) (now : Nat) :
    LRUCache.set s key v ttl now =
      (true,
        { (LRUCache.evictWhile (LRUCache.removeExisting s key)).1 with
          cache := (LRUCache.evictWhile (LRUCache.removeExisting s key)).1.cache ++ [(key, v)]
          expiry_times := setAssoc key
            (now + LRUCache.ttlOrDefault ttl
              (LRUCache.evictWhile (LRUCache.removeExisting s key)).1.default_ttl)
            (LRUCache.evictWhile (LRUCache.removeExisting s key)).1.expiry_times
          sets := (LRUCache.evictWhile (LRUCache.removeExisting s key)).1.sets + 1 }) := by
  have hcond : (containsKey s.cache key && !containsKey s.expiry_times key) = false := by
    by_cases hc : containsKey s.cache key = true
    · have hme := h.2.2.1 key ((containsKey_eq_true_iff _ _).1 hc)
      have he := (containsKey_eq_true_iff _ _).2 hme
      simp [hc, he]
    · have hc' : containsKey s.cache key = false := by
        cases hb : containsKey s.cache key
        · rfl
        · exact absurd hb hc
      simp [hc']
  unfold LRUCache.set
  simp only [hcond, Bool.false_eq_true, if_false]

/-- Appending a freshly touched entry to a recency-sorted list keeps it
sorted for the updated touch map, provided the key was not resident. -/
theorem touch_append_pairwise {α : Type} {tch tch2 : String → Nat} {i : Nat}
    {l : List (String × α)} {k : String} (v : α)
    (hpw : l.Pairwise (fun a b => tch a.1 < tch b.1))
    (hbound : ∀ p ∈ l, tch p.1 < i)
    (hk : k ∉ keysOf l)
    (h2k : tch2 k = i)
    (h2ne : ∀ x, x ≠ k → tch2 x = tch x) :
    (l ++ [(k, v)]).Pairwise (fun a b => tch2 a.1 < tch2 b.1) ∧
      ∀ p ∈ l ++ [(k, v)], tch2 p.1 < i + 1 := by
  have hne : ∀ p ∈ l, p.1 ≠ k := by
    intro p hp he
    exact hk (he ▸ List.mem_map_of_mem Prod.fst hp)
  constructor
  · rw [List.pairwise_append]
    refine ⟨?_, ?_, ?_⟩
    · refine List.Pairwise.imp_of_mem ?_ hpw
      intro a b ha hb hr
      rw [h2ne _ (hne _ ha), h2ne _ (hne _ hb)]
      exact hr
    · simp
    · intro a ha b hb
      simp only [List.mem_singleton] at hb
      subst hb
      show tch2 a.1 < tch2 k
      rw [h2k, h2ne _ (hne _ ha)]
      exact hbound a ha
  · intro p hp
    rcases List.mem_append.1 hp with hp | hp
    · rw [h2ne _ (hne _ hp)]
      exact Nat.lt_succ_of_lt (hbound p hp)
    · simp only [List.mem_singleton] at hp
      subst hp
      show tch2 k < i + 1
      rw [h2k]
      exact Nat.lt_succ_self i

theorem touchInv_applyOp {α : Type} {s : CacheState α} {tch : String → Nat} {i : Nat}
    (hwf : WF s) (hti : TouchInv tch i s) (op : CacheOp α) :
    TouchInv (touchUpd tch i s op) (i + 1) (applyOp s op) := by
  obtain ⟨hpw, hbound⟩ := hti
  have hsub_case : ∀ (l' : List (String × α)), List.Sublist l' s.cache →
      l'.Pairwise (fun a b => tch a.1 < tch b.1) ∧ ∀ p ∈ l', tch p.1 < i + 1 := by
    intro l' hsub
    exact ⟨List.Pairwise.sublist hsub hpw,
      fun p hp => Nat.lt_succ_of_lt (hbound p (hsub.subset hp))⟩
  cases op with
  | setOp k v ttl now =>
    show TouchInv (fun x => if x = k then i else tch x) (i + 1) (LRUCache.set s k v ttl now).2
    rw [set_eq_of_wf hwf k v ttl now]
    have hsub : List.Sublist
        (LRUCache.evictWhile (LRUCache.removeExisting s k)).1.cache s.cache :=
      List.Sublist.trans (evictSteps_cache_sublist _ _) (removeExisting_cache_sublist s k)
    have hk2 : k ∉ keysOf (LRUCache.evictWhile (LRUCache.removeExisting s k)).1.cache := by
      intro hmem
      exact removeExisting_key_not_mem hwf.1 k
        ((keysOf_sublist_of_sublist (evictSteps_cache_sublist _ _)).mem hmem)
    have h2k : (fun x => if x = k then i else tch x) k = i := by simp
    have h2ne : ∀ x, x ≠ k → (fun x => if x = k then i else tch x) x = tch x := by
      intro x hx
      simp [hx]
    exact touch_append_pairwise v
      (List.Pairwise.sublist hsub hpw)
      (fun p hp => hbound p (hsub.subset hp))
      hk2 h2k h2ne
  | getOp k d now =>
    show TouchInv (touchUpd tch i s (CacheOp.getOp k d now)) (i + 1) (LRUCache.get s k d now).2
    unfold touchUpd LRUCache.get
    cases hl : lookupKey s.cache k with
    | none =>
      have hck : containsKey s.cache k = false := by simp [containsKey, hl]
      simp only [hck, Bool.false_and, Bool.false_eq_true, if_false]
      exact hsub_case s.cache (List.Sublist.refl _)
    | some v =>
      have hck : containsKey s.cache k = true := by simp [containsKey, hl]
      by_cases hexp : LRUCache.is_expired s k now
      · simp only [hck, hexp, Bool.not_true, Bool.and_false, Bool.false_eq_true,
          if_false, if_true]
        exact hsub_case _ (remove_expired_cache_sublist s k)
      · have hexp' : LRUCache.is_expired s k now = false := by
          cases hb : LRUCache.is_expired s k now
          · rfl
          · exact absurd hb hexp
        simp only [hck, hexp', Bool.not_false, Bool.and_true, if_true,
          Bool.false_eq_true, if_false]
        have hkc : k ∉ keysOf (eraseKey k s.cache) :=
          not_mem_keysOf_eraseKey k s.cache hwf.1
        have h2k : (fun x => if x = k then i else tch x) k = i := by simp
        have h2ne : ∀ x, x ≠ k → (fun x => if x = k then i else tch x) x = tch x := by
          intro x hx
          simp [hx]
        exact touch_append_pairwise v
          (List.Pairwise.sublist (eraseKey_sublist k s.cache) hpw)
          (fun p hp => hbound p ((eraseKey_sublist k s.cache).subset hp))
          hkc h2k h2ne
  | existsOp k now =>
    exact hsub_case _ (existsKey_cache_sublist s k now)
  | deleteOp k =>
    exact hsub_case _ (delete_cache_sublist s k)
  | clearOp =>
    exact hsub_case _ (List.nil_sublist s.cache)
  | cleanupOp now =>
    exact hsub_case _ (fold_remove_expired_cache_sublist _ s)

theorem grun_fst {α : Type} (ops : List (CacheOp α)) (s : CacheState α)
    (tch : String → Nat) (i : Nat) : (grun ops s tch i).1 = run s ops := by
  induction ops generalizing s tch i with
  | nil => rfl
  | cons op ops ih => exact ih (applyOp s op) (touchUpd tch i s op) (i + 1)

theorem grun_inv {α : Type} (ops : List (CacheOp α)) {s : CacheState α}
    {tch : String → Nat} {i : Nat} (hwf : WF s) (hti : TouchInv tch i s) :
    WF (grun ops s tch i).1 ∧
      TouchInv (grun ops s tch i).2.1 (grun ops s tch i).2.2 (grun ops s tch i).1 := by
  induction ops generalizing s tch i with
  | nil => exact ⟨hwf, hti⟩
  | cons op ops ih => exact ih (wf_applyOp hwf op) (touchInv_applyOp hwf hti op)

/-- After a `set` under well-formedness, the key is resident and holds the
value just stored. -/
theorem set_lookup_self {α : Type} {s : CacheState α} (h : WF s) (key : String)
    (v : α) (ttl : Option Nat) (now : Nat) :
    lookupKey (LRUCache.set s key v ttl now).2.cache key = some v := by
  rw [set_eq_of_wf h key v ttl now]
  show lookupKey
    ((LRUCache.evictWhile (LRUCache.removeExisting s key)).1.cache ++ [(key, v)]) key = some v
  have hk : key ∉ keysOf (LRUCache.evictWhile (LRUCache.removeExisting s key)).1.cache := by
    intro hmem
    exact removeExisting_key_not_mem h.1 key
      ((keysOf_sublist_of_sublist (evictSteps_cache_sublist _ _)).mem hmem)
  rw [lookupKey_append_right _ _ _ hk]
  simp [lookupKey]

/-- `n` consecutive `get` calls with the same key, default and clock. -/
def getIter {α : Type} (s : CacheState α) (key : String) (d : α) (now : Nat) :
    Nat → CacheState α
  | 0 => s
  | n + 1 => getIter (LRUCache.get s key d now).2 key d now n

theorem getIter_absent {α : Type} (n : Nat) (s : CacheState α) (key : String)
    (d : α) (now : Nat) (hl : lookupKey s.cache key = none) :
    (getIter s key d now n).misses = s.misses + n ∧
      (getIter s key d now n).hits = s.hits := by
  induction n generalizing s with
  | zero => exact ⟨rfl, rfl⟩
  | succ m ih =>
    have hstep : LRUCache.get s key d now = (d, { s with misses := s.misses + 1 }) := by
      unfold LRUCache.get
      rw [hl]
    show (getIter (LRUCache.get s key d now).2 key d now m).misses = s.misses + (m + 1) ∧
      (getIter (LRUCache.get s key d now).2 key d now m).hits = s.hits
    rw [hstep]
    have := ih { s with misses := s.misses + 1 } hl
    refine ⟨?_, this.2⟩
    rw [this.1]
    show s.misses + 1 + m = s.misses + (m + 1)
    omega

theorem get_hit_step {α : Type} {s : CacheState α} {key : String} {v : α}
    (d : α) {now : Nat} (hl : lookupKey s.cache key = some v)
    (hexp : LRUCache.is_expired s key now = false) :
    LRUCache.get s key d now =
      (v, { s with cache := eraseKey key s.cache ++ [(key, v)]
                   hits := s.hits + 1 }) := by
  unfold LRUCache.get
  rw [hl]
  simp [hexp]

theorem getIter_valid {α : Type} (n : Nat) {s : CacheState α} {key : String}
    (d : α) {now : Nat} {v : α} (hwf : WF s)
    (hl : lookupKey s.cache key = some v)
    (hexp : LRUCache.is_expired s key now = false) :
    (getIter s key d now n).hits = s.hits + n ∧
      (getIter s key d now n).misses = s.misses := by
  induction n generalizing s with
  | zero => exact ⟨rfl, rfl⟩
  | succ m ih =>
    have hstep := get_hit_step d hl hexp
    have hwf' : WF (LRUCache.get s key d now).2 := wf_get hwf key d now
    rw [hstep] at hwf'
    have hl' : lookupKey ({ s with cache := eraseKey key s.cache ++ [(key, v)]
                                   hits := s.hits + 1 } : CacheState α).cache key = some v := by
      show lookupKey (eraseKey key s.cache ++ [(key, v)]) key = some v
      rw [lookupKey_append_right _ _ _ (not_mem_keysOf_eraseKey key s.cache hwf.1)]
      simp [lookupKey]
    have hexp' : LRUCache.is_expired ({ s with cache := eraseKey key s.cache ++ [(key, v)]
                                               hits := s.hits + 1 } : CacheState α) key now = false := hexp
    show (getIter (LRUCache.get s key d now).2 key d now m).hits = s.hits + (m + 1) ∧
      (getIter (LRUCache.get s key d now).2 key d now m).misses = s.misses
    rw [hstep]
    have := ih hwf' hl' hexp'
    refine ⟨?_, this.2⟩
    rw [this.1]
    show s.hits + 1 + m = s.hits + (m + 1)
    omega

theorem evict_lru_default_ttl {α : Type} (s : CacheState α) :
    (LRUCache.evict_lru s).default_ttl = s.default_ttl := by
  unfold LRUCache.evict_lru
  rcases hc : s.cache with _ | ⟨⟨k, v⟩, rest⟩ <;> simp [hc]

theorem evictSteps_default_ttl {α : Type} (fuel : Nat) (s : CacheState α) :
    (LRUCache.evictSteps fuel s).1.default_ttl = s.default_ttl := by
  induction fuel generalizing s with
  | zero => rfl
  | succ n ih =>
    unfold LRUCache.evictSteps
    by_cases hle : s.max_size ≤ s.cache.length
    · simp only [hle, if_true]
      rcases hc : s.cache with _ | ⟨⟨k, v⟩, rest⟩
      · simp only [hc]
      · simp only [hc]
        rw [ih (LRUCache.evict_lru s), evict_lru_default_ttl]
    · simp only [hle, if_false]

theorem removeExisting_default_ttl {α : Type} (s : CacheState α) (key : String) :
    (LRUCache.removeExisting s key).default_ttl = s.default_ttl := by
  unfold LRUCache.removeExisting
  by_cases hc : containsKey s.cache key <;> simp [hc]

/-- The key being stored by `set` is absent from the intermediate state
produced by self-removal plus eviction (entry side). -/
theorem set_inner_key_not_mem_cache {α : Type} {s : CacheState α} (h : WF s)
    (key : String) :
    key ∉ keysOf (LRUCache.evictWhile (LRUCache.removeExisting s key)).1.cache := by
  intro hmem
  exact removeExisting_key_not_mem h.1 key
    ((keysOf_sublist_of_sublist (evictSteps_cache_sublist _ _)).mem hmem)

/-- The key being stored by `set` is absent from the intermediate state
produced by self-removal plus eviction (expiry side). -/
theorem set_inner_key_not_mem_expiry {α : Type} {s : CacheState α} (h : WF s)
    (key : String) :
    key ∉ keysOf (LRUCache.evictWhile (LRUCache.removeExisting s key)).1.expiry_times := by
  intro hmem
  exact set_inner_key_not_mem_cache h key
    ((wf_evictSteps _ (wf_removeExisting h key)).2.2.2 key hmem)

/-- After a `set` under well-formedness, the key's expiry record is
exactly `now + (ttl or default_ttl)`. -/
theorem set_lookup_expiry {α : Type} {s : CacheState α} (h : WF s) (key : String)
    (v : α) (ttl : Option Nat) (now : Nat) :
    lookupKey (LRUCache.set s key v ttl now).2.expiry_times key =
      some (now + LRUCache.ttlOrDefault ttl s.default_ttl) := by
  have hd : (LRUCache.evictWhile (LRUCache.removeExisting s key)).1.default_ttl =
      s.default_ttl := by
    unfold LRUCache.evictWhile
    rw [evictSteps_default_ttl, removeExisting_default_ttl]
  have hk := set_inner_key_not_mem_expiry h key
  rw [set_eq_of_wf h key v ttl now]
  show lookupKey (setAssoc key
      (now + LRUCache.ttlOrDefault ttl
        (LRUCache.evictWhile (LRUCache.removeExisting s key)).1.default_ttl)
      (LRUCache.evictWhile (LRUCache.removeExisting s key)).1.expiry_times) key =
    some (now + LRUCache.ttlOrDefault ttl s.default_ttl)
  rw [setAssoc_of_not_mem _ _ _ hk, lookupKey_append_right _ _ _ hk, hd]
  simp [lookupKey]

theorem lookupKey_eq_some_iff_mem {β : Type} (l : List (String × β)) (k : String)
    (t : β) (hnd : (keysOf l).Nodup) : lookupKey l k = some t ↔ (k, t) ∈ l := by
  induction l with
  | nil => simp
  | cons p rest ih =>
    obtain ⟨k1, v1⟩ := p
    simp only [keysOf_cons, List.nodup_cons] at hnd
    by_cases h : k1 = k
    · subst h
      have hred : lookupKey ((k1, v1) :: rest) k1 = some v1 := by simp [lookupKey]
      rw [hred]
      constructor
      · intro hv
        have hv' : v1 = t := Option.some.inj hv
        subst hv'
        exact List.mem_cons_self _ _
      · intro hmem
        rcases List.mem_cons.1 hmem with he | hmem
        · have h2 : t = v1 := congrArg Prod.snd he
          rw [h2]
        · exact absurd (List.mem_map_of_mem Prod.fst hmem) hnd.1
    · simp only [lookupKey_cons, if_neg h, List.mem_cons, Prod.mk.injEq]
      rw [ih hnd.2]
      constructor
      · exact fun hm => Or.inr hm
      · rintro (⟨hk, -⟩ | hm)
        · exact absurd hk.symm h
        · exact hm

/-- Values under one key are unique when keys are distinct. -/
theorem mem_unique_of_nodup_keys {β : Type} {l : List (String × β)} {k : String}
    {a b : β} (hnd : (keysOf l).Nodup) (ha : (k, a) ∈ l) (hb : (k, b) ∈ l) :
    a = b := by
  have h1 := (lookupKey_eq_some_iff_mem l k a hnd).2 ha
  have h2 := (lookupKey_eq_some_iff_mem l k b hnd).2 hb
  rw [h1] at h2
  exact Option.some.inj h2

/-- Folding `_remove_expired` over a duplicate-free list of resident keys
removes exactly those keys from both maps, counts one expiration per key,
and leaves every other field alone. -/
theorem fold_remove_expired_fields {α : Type} (ks : List String) {s : CacheState α}
    (hwf : WF s) (hnd : ks.Nodup) (hmem : ∀ x ∈ ks, x ∈ keysOf s.cache) :
    (ks.foldl LRUCache.remove_expired s).cache =
      s.cache.filter (fun p => !decide (p.1 ∈ ks)) ∧
    (ks.foldl LRUCache.remove_expired s).expiry_times =
      s.expiry_times.filter (fun p => !decide (p.1 ∈ ks)) ∧
    (ks.foldl LRUCache.remove_expired s).expirations = s.expirations + ks.length ∧
    (ks.foldl LRUCache.remove_expired s).hits = s.hits ∧
    (ks.foldl LRUCache.remove_expired s).misses = s.misses ∧
    (ks.foldl LRUCache.remove_expired s).sets = s.sets ∧
    (ks.foldl LRUCache.remove_expired s).deletes = s.deletes ∧
    (ks.foldl LRUCache.remove_expired s).evictions = s.evictions ∧
    (ks.foldl LRUCache.remove_expired s).last_cleanup = s.last_cleanup := by
  induction ks generalizing s with
  | nil =>
    refine ⟨?_, ?_, rfl, rfl, rfl, rfl, rfl, rfl, rfl⟩
    · exact (List.filter_eq_self.2 (by intro a ha; simp)).symm
    · exact (List.filter_eq_self.2 (by intro a ha; simp)).symm
  | cons x ks ih =>
    simp only [List.foldl_cons]
    have hxmem := hmem x (by simp)
    have hxc : containsKey s.cache x = true := (containsKey_eq_true_iff _ _).2 hxmem
    have hxe : containsKey s.expiry_times x = true :=
      (containsKey_eq_true_iff _ _).2 (hwf.2.2.1 x hxmem)
    have hfields : (LRUCache.remove_expired s x).cache = eraseKey x s.cache ∧
        (LRUCache.remove_expired s x).expiry_times = eraseKey x s.expiry_times ∧
        (LRUCache.remove_expired s x).expirations = s.expirations + 1 ∧
        (LRUCache.remove_expired s x).hits = s.hits ∧
        (LRUCache.remove_expired s x).misses = s.misses ∧
        (LRUCache.remove_expired s x).sets = s.sets ∧
        (LRUCache.remove_expired s x).deletes = s.deletes ∧
        (LRUCache.remove_expired s x).evictions = s.evictions ∧
        (LRUCache.remove_expired s x).last_cleanup = s.last_cleanup := by
      unfold LRUCache.remove_expired
      rw [if_pos hxc, if_pos hxe]
      exact ⟨rfl, rfl, rfl, rfl, rfl, rfl, rfl, rfl, rfl⟩
    have hwf' : WF (LRUCache.remove_expired s x) := wf_remove_expired hwf x
    simp only [List.nodup_cons] at hnd
    have hmem' : ∀ y ∈ ks, y ∈ keysOf (LRUCache.remove_expired s x).cache := by
      intro y hy
      rw [hfields.1, mem_keysOf_eraseKey_iff x y _ hwf.1]
      exact ⟨hmem y (by simp [hy]), fun he => hnd.1 (he ▸ hy)⟩
    obtain ⟨h1, h2, h3, h4, h5, h6, h7, h8, h9⟩ := ih hwf' hnd.2 hmem'
    rw [hfields.1] at h1
    rw [hfields.2.1] at h2
    rw [hfields.2.2.1] at h3
    rw [hfields.2.2.2.1] at h4
    rw [hfields.2.2.2.2.1] at h5
    rw [hfields.2.2.2.2.2.1] at h6
    rw [hfields.2.2.2.2.2.2.1] at h7
    rw [hfields.2.2.2.2.2.2.2.1] at h8
    rw [hfields.2.2.2.2.2.2.2.2] at h9
    refine ⟨?_, ?_, ?_, h4, h5, h6, h7, h8, h9⟩
    · rw [h1, eraseKey_eq_filter x _ hwf.1, List.filter_filter]
      apply List.filter_congr
      intro p hp
      by_cases hx : p.1 = x <;> by_cases hks : p.1 ∈ ks <;> simp [hx, hks]
    · rw [h2, eraseKey_eq_filter x _ hwf.2.1, List.filter_filter]
      apply List.filter_congr
      intro p hp
      by_cases hx : p.1 = x <;> by_cases hks : p.1 ∈ ks <;> simp [hx, hks]
    · rw [h3]
      show s.expirations + 1 + ks.length = s.expirations + (ks.length + 1)
      omega

/-! ## Claims -/

/-- Claim C4: starting from a freshly initialized cache, after any
sequence of operations (set — which includes eviction —, get — which
includes expiry removal —, exists, delete, clear, and reaper cleanup
sweeps) the ordered entry map and the expiry-time map hold exactly the
same set of keys: no operation leaves a key in one structure without the
other. -/
theorem C4_cache_and_expiry_keys_agree (α : Type) (N dttl t0 : Nat)
    (ops : List (CacheOp α)) (k : String) :
    k ∈ keysOf (run (LRUCache.init α N dttl t0) ops).cache ↔
      k ∈ keysOf (run (LRUCache.init α N dttl t0) ops).expiry_times :=
  (wf_run ops (wf_init α N dttl t0)).mem_iff k

/-- Claim C5: `clear()` empties both the entry map and the expiry map
(`current_size` becomes 0) while leaving every statistics counter and the
`created_at` timestamp at their pre-clear values. -/
theorem C5_clear_preserves_counters (α : Type) (s : CacheState α) :
    (LRUCache.clear s).cache = [] ∧
    (LRUCache.clear s).expiry_times = [] ∧
    LRUCache.current_size (LRUCache.clear s) = 0 ∧
    (LRUCache.clear s).hits = s.hits ∧
    (LRUCache.clear s).misses = s.misses ∧
    (LRUCache.clear s).sets = s.sets ∧
    (LRUCache.clear s).deletes = s.deletes ∧
    (LRUCache.clear s).evictions = s.evictions ∧
    (LRUCache.clear s).expirations = s.expirations ∧
    (LRUCache.clear s).created_at = s.created_at :=
  ⟨rfl, rfl, rfl, rfl, rfl, rfl, rfl, rfl, rfl, rfl⟩

/-- Claim C8: pattern invalidation clears the whole named instance and
returns the count 1 exactly for the sentinel patterns `"*"` and `"all"`;
for every other pattern it deletes nothing, leaves the cache state
unchanged, and returns 0. -/
theorem C8_invalidate_pattern_sentinels (α : Type) (pattern : String)
    (s : CacheState α) :
    invalidate_cache_pattern pattern s =
      (if pattern = "*" ∨ pattern = "all" then (1, LRUCache.clear s) else (0, s)) ∧
    (LRUCache.clear s).cache = [] ∧
    (LRUCache.clear s).expiry_times = [] := by
  refine ⟨?_, rfl, rfl⟩
  unfold invalidate_cache_pattern
  by_cases h1 : pattern = "*"
  · simp [h1]
  · by_cases h2 : pattern = "all"
    · simp [h1, h2]
    · simp [h1, h2]

/-- Claim C1 counterexample: a wrapped unit that raises `"e1"` on its
first invocation and `"e2"` on its second, called through `cache_result`
on a fresh cache (a miss), is invoked twice — not exactly once — and the
caller sees `"e2"`: the cache layer caught the first exception, and the
propagated exception is not the original one. -/
theorem C1_counterexample :
    (cache_result_call "f" "()" "[]" ""
        (fun i => (Except.error (if i = 0 then "e1" else "e2") : Except String (Option Nat)))
        300 0 (LRUCache.init (Option Nat) 10 300 0)).2.2 = 2 ∧
    (cache_result_call "f" "()" "[]" ""
        (fun i => (Except.error (if i = 0 then "e1" else "e2") : Except String (Option Nat)))
        300 0 (LRUCache.init (Option Nat) 10 300 0)).1 = Except.error "e2" ∧
    "e2" ≠ "e1" :=
  ⟨rfl, rfl, by decide⟩

/-- Claim C1 (amended): on a cache miss, if the wrapped unit returns
normally it executes exactly once and its result is stored under the
derived key; if it raises, the wrapper's `except` block catches the
exception and executes the unit a second time, the second invocation's
outcome is what reaches the caller, and nothing is stored — the final
state is exactly the post-lookup state. -/
theorem C1_cache_result_miss_behaviour {E V : Type} (fn as ks pref : String)
    (f : Nat → Except E (Option V)) (ttl now : Nat) (s : CacheState (Option V))
    (hwf : WF s)
    (hmiss : (LRUCache.get s (generate_cache_key fn as ks pref) none now).1 = none) :
    (∀ r, f 0 = Except.ok r →
      cache_result_call fn as ks pref f ttl now s =
        (Except.ok r,
          (LRUCache.set (LRUCache.get s (generate_cache_key fn as ks pref) none now).2
            (generate_cache_key fn as ks pref) r (some ttl) now).2, 1) ∧
      lookupKey (cache_result_call fn as ks pref f ttl now s).2.1.cache
        (generate_cache_key fn as ks pref) = some r) ∧
    (∀ e, f 0 = Except.error e →
      cache_result_call fn as ks pref f ttl now s =
        (f 1, (LRUCache.get s (generate_cache_key fn as ks pref) none now).2, 2)) := by
  have hwf1 : WF (LRUCache.get s (generate_cache_key fn as ks pref) none now).2 :=
    wf_get hwf _ none now
  constructor
  · intro r hr
    have heq : cache_result_call fn as ks pref f ttl now s =
        (Except.ok r,
          (LRUCache.set (LRUCache.get s (generate_cache_key fn as ks pref) none now).2
            (generate_cache_key fn as ks pref) r (some ttl) now).2, 1) := by
      unfold cache_result_call
      simp only [hmiss, hr]
    refine ⟨heq, ?_⟩
    rw [heq]
    exact set_lookup_self hwf1 _ r (some ttl) now
  · intro e he
    unfold cache_result_call
    simp only [hmiss, he]

/-- Claim C1 witness: concrete instantiation on a fresh cache with a
computation returning `some 5`. -/
theorem C1_cache_result_miss_behaviour_witness :
    (∀ r, (fun _ : Nat => (Except.ok (some 5) : Except String (Option Nat))) 0 = Except.ok r →
      cache_result_call "f" "()" "[]" ""
          (fun _ : Nat => (Except.ok (some 5) : Except String (Option Nat)))
          300 0 (LRUCache.init (Option Nat) 10 300 0) =
        (Except.ok r,
          (LRUCache.set
            (LRUCache.get (LRUCache.init (Option Nat) 10 300 0)
              (generate_cache_key "f" "()" "[]" "") none 0).2
            (generate_cache_key "f" "()" "[]" "") r (some 300) 0).2, 1) ∧
      lookupKey (cache_result_call "f" "()" "[]" ""
          (fun _ : Nat => (Except.ok (some 5) : Except String (Option Nat)))
          300 0 (LRUCache.init (Option Nat) 10 300 0)).2.1.cache
        (generate_cache_key "f" "()" "[]" "") = some r) ∧
    (∀ e, (fun _ : Nat => (Except.ok (some 5) : Except String (Option Nat))) 0 = Except.error e →
      cache_result_call "f" "()" "[]" ""
          (fun _ : Nat => (Except.ok (some 5) : Except String (Option Nat)))
          300 0 (LRUCache.init (Option Nat) 10 300 0) =
        ((fun _ : Nat => (Except.ok (some 5) : Except String (Option Nat))) 1,
          (LRUCache.get (LRUCache.init (Option Nat) 10 300 0)
            (generate_cache_key "f" "()" "[]" "") none 0).2, 2)) :=
  C1_cache_result_miss_behaviour "f" "()" "[]" ""
    (fun _ => Except.ok (some 5)) 300 0 (LRUCache.init (Option Nat) 10 300 0)
    (by decide) (by decide)

/-- When the value resident under a key is Python `None`, `get` with the
`None` default returns `None` whether the entry is expired or not. -/
theorem get_of_stored_none {V : Type} (s : CacheState (Option V)) (key : String)
    (now : Nat) (h : lookupKey s.cache key = some none) :
    (LRUCache.get s key none now).1 = none := by
  unfold LRUCache.get
  rw [h]
  by_cases hexp : LRUCache.is_expired s key now <;> simp [hexp]

/-- Claim C9: a wrapped computation returning Python `None` gets its
`None` stored by the wrapper, but a stored `None` (equal to the wrapper's
miss sentinel) can never be served as a hit: whenever the entry under the
derived key is resident with value `None`, a call through the wrapper
invokes the wrapped unit again. -/
theorem C9_none_result_never_served {E V : Type} (fn as ks pref : String)
    (ttl now : Nat) (s : CacheState (Option V)) (f : Nat → Except E (Option V))
    (hwf : WF s)
    (hmiss : (LRUCache.get s (generate_cache_key fn as ks pref) none now).1 = none)
    (hnone : f 0 = Except.ok none) :
    lookupKey (cache_result_call fn as ks pref f ttl now s).2.1.cache
        (generate_cache_key fn as ks pref) = some none ∧
    (∀ (s9 : CacheState (Option V)) (g : Nat → Except E (Option V)),
      lookupKey s9.cache (generate_cache_key fn as ks pref) = some none →
      1 ≤ (cache_result_call fn as ks pref g ttl now s9).2.2) := by
  constructor
  · exact ((C1_cache_result_miss_behaviour fn as ks pref f ttl now s hwf hmiss).1
      none hnone).2
  · intro s9 g hres
    have h9 : (LRUCache.get s9 (generate_cache_key fn as ks pref) none now).1 = none :=
      get_of_stored_none s9 _ now hres
    unfold cache_result_call
    simp only [h9]
    cases g 0 <;> simp

/-- Claim C9 witness: fresh cache, computation constantly `None`; then the
second part applied to the state left by the first call. -/
theorem C9_none_result_never_served_witness :
    lookupKey (cache_result_call "g" "()" "[]" ""
        (fun _ : Nat => (Except.ok none : Except String (Option Nat))) 300 0
        (LRUCache.init (Option Nat) 10 300 0)).2.1.cache
      (generate_cache_key "g" "()" "[]" "") = some none ∧
    (∀ (s9 : CacheState (Option Nat)) (g : Nat → Except String (Option Nat)),
      lookupKey s9.cache (generate_cache_key "g" "()" "[]" "") = some none →
      1 ≤ (cache_result_call "g" "()" "[]" "" g 300 0 s9).2.2) :=
  C9_none_result_never_served "g" "()" "[]" "" 300 0
    (LRUCache.init (Option Nat) 10 300 0)
    (fun _ => Except.ok none) (by decide) (by decide) rfl

/-- Claim C10: a request whose method is not GET bypasses the cache in
both the `cache_view` decorator and the caching middleware: the handler
is invoked (never fewer than once), the cache state — contents and all
statistics counters — is returned unchanged, and the response is the
handler's own outcome (with the decorator's `except`-block retry if the
handler raises). -/
theorem C10_non_get_bypass {E V : Type} (view_name pref : String)
    (vbu vbm : Bool) (view : Nat → Except E (Response V))
    (getConfig : String → Option CacheConfig) (viewM : Request → Response V)
    (req : Request) (ttl now : Nat) (s : CacheState (Option (Response V)))
    (hm : req.method ≠ "GET") :
    (cache_view_call view_name pref vbu vbm view req ttl now s).2.1 = s ∧
    1 ≤ (cache_view_call view_name pref vbu vbm view req ttl now s).2.2 ∧
    (cache_view_call view_name pref vbu vbm view req ttl now s).1 =
      (match view 0 with
       | Except.ok r => Except.ok r
       | Except.error _ => view 1) ∧
    middleware_handle getConfig viewM req s now = (viewM req, s) := by
  have hview : cache_view_call view_name pref vbu vbm view req ttl now s =
      (match view 0 with
       | Except.ok r => (Except.ok r, s, 1)
       | Except.error _ => (view 1, s, 2)) := by
    unfold cache_view_call
    rw [if_pos hm]
  have hmid : middleware_handle getConfig viewM req s now = (viewM req, s) := by
    unfold middleware_handle process_request
    rw [if_pos hm]
    rfl
  refine ⟨?_, ?_, ?_, hmid⟩ <;> rw [hview] <;> cases view 0 <;> simp

/-- Claim C10 witness: a POST request through both layers. -/
theorem C10_non_get_bypass_witness :
    (cache_view_call "v" "" true true
        (fun _ : Nat => (Except.ok ⟨200, 42⟩ : Except String (Response Nat)))
        { method := "POST", path := "/api/urls/", query := [], user := some 1 }
        300 0 (LRUCache.init (Option (Response Nat)) 10 300 0)).2.1 =
      LRUCache.init (Option (Response Nat)) 10 300 0 ∧
    1 ≤ (cache_view_call "v" "" true true
        (fun _ : Nat => (Except.ok ⟨200, 42⟩ : Except String (Response Nat)))
        { method := "POST", path := "/api/urls/", query := [], user := some 1 }
        300 0 (LRUCache.init (Option (Response Nat)) 10 300 0)).2.2 ∧
    (cache_view_call "v" "" true true
        (fun _ : Nat => (Except.ok ⟨200, 42⟩ : Except String (Response Nat)))
        { method := "POST", path := "/api/urls/", query := [], user := some 1 }
        300 0 (LRUCache.init (Option (Response Nat)) 10 300 0)).1 =
      (match (fun _ : Nat => (Except.ok ⟨200, 42⟩ : Except String (Response Nat))) 0 with
       | Except.ok r => Except.ok r
       | Except.error _ =>
         (fun _ : Nat => (Except.ok ⟨200, 42⟩ : Except String (Response Nat))) 1) ∧
    middleware_handle (fun _ => some ⟨"url", 300, true, false⟩)
        (fun _ => (⟨200, 7⟩ : Response Nat))
        { method := "POST", path := "/api/urls/", query := [], user := some 1 }
        (LRUCache.init (Option (Response Nat)) 10 300 0) 0 =
      ((⟨200, 7⟩ : Response Nat), LRUCache.init (Option (Response Nat)) 10 300 0) :=
  C10_non_get_bypass "v" "" true true
    (fun _ => Except.ok ⟨200, 42⟩) (fun _ => some ⟨"url", 300, true, false⟩)
    (fun _ => ⟨200, 7⟩)
    { method := "POST", path := "/api/urls/", query := [], user := some 1 }
    300 0 (LRUCache.init (Option (Response Nat)) 10 300 0) (by decide)

/-- Claim C7 counterexample: an entry whose expiry equals the sweep time
(so expiry ≤ now holds) is NOT removed by the cleanup sweep — the source
removes only keys with `now > expiry`, strictly — and no expiration is
counted for it. -/
theorem C7_counterexample :
    lookupKey ((LRUCache.set (LRUCache.init Nat 10 300 0) "a" 1 (some 5) 0).2).expiry_times
      "a" = some 5 ∧
    5 ≤ (5 : Nat) ∧
    containsKey (LRUCache.cleanup_expired
      ((LRUCache.set (LRUCache.init Nat 10 300 0) "a" 1 (some 5) 0).2) 5).cache "a" = true ∧
    containsKey (LRUCache.cleanup_expired
      ((LRUCache.set (LRUCache.init Nat 10 300 0) "a" 1 (some 5) 0).2) 5).expiry_times
      "a" = true ∧
    (LRUCache.cleanup_expired
      ((LRUCache.set (LRUCache.init Nat 10 300 0) "a" 1 (some 5) 0).2) 5).expirations = 0 :=
  ⟨by decide, by decide, by decide, by decide, by decide⟩

/-- Claim C7 (amended): one cleanup sweep at time `now` removes from both
maps exactly the entries whose expiry is strictly below `now` (the
source's `current_time > expiry_time`; an entry with expiry equal to the
sweep time survives), increments `expirations` once per removed key, sets
`last_cleanup` to the sweep time, and changes no other counter; entries
with expiry ≥ now are untouched. -/
theorem C7_cleanup_removes_strictly_expired {α : Type} (s : CacheState α)
    (now : Nat) (hwf : WF s) :
    (LRUCache.cleanup_expired s now).cache =
      s.cache.filter (fun p => !LRUCache.is_expired s p.1 now) ∧
    (LRUCache.cleanup_expired s now).expiry_times =
      s.expiry_times.filter (fun p => !decide (p.2 < now)) ∧
    (LRUCache.cleanup_expired s now).expirations =
      s.expirations + (s.expiry_times.filter (fun p => decide (p.2 < now))).length ∧
    (LRUCache.cleanup_expired s now).last_cleanup = now ∧
    (LRUCache.cleanup_expired s now).hits = s.hits ∧
    (LRUCache.cleanup_expired s now).misses = s.misses ∧
    (LRUCache.cleanup_expired s now).sets = s.sets ∧
    (LRUCache.cleanup_expired s now).deletes = s.deletes ∧
    (LRUCache.cleanup_expired s now).evictions = s.evictions := by
  have hnd : ((s.expiry_times.filter (fun p => decide (p.2 < now))).map Prod.fst).Nodup :=
    List.Nodup.sublist (List.Sublist.map Prod.fst (List.filter_sublist _)) hwf.2.1
  have hmem : ∀ x ∈ (s.expiry_times.filter (fun p => decide (p.2 < now))).map Prod.fst,
      x ∈ keysOf s.cache := by
    intro x hx
    obtain ⟨q, hq, hqx⟩ := List.mem_map.1 hx
    have hqm := List.mem_of_mem_filter hq
    exact hwf.2.2.2 x (hqx ▸ List.mem_map_of_mem Prod.fst hqm)
  obtain ⟨h1, h2, h3, h4, h5, h6, h7, h8, h9⟩ :=
    fold_remove_expired_fields
      ((s.expiry_times.filter (fun p => decide (p.2 < now))).map Prod.fst) hwf hnd hmem
  have hin : ∀ x, x ∈ (s.expiry_times.filter (fun p => decide (p.2 < now))).map Prod.fst ↔
      LRUCache.is_expired s x now = true := by
    intro x
    constructor
    · intro hx
      obtain ⟨q, hq, hqx⟩ := List.mem_map.1 hx
      have hqm := (List.mem_filter.1 hq).1
      have hqlt : decide (q.2 < now) = true := (List.mem_filter.1 hq).2
      have hlq : lookupKey s.expiry_times x = some q.2 := by
        rw [← hqx]
        exact (lookupKey_eq_some_iff_mem _ _ _ hwf.2.1).2 hqm
      unfold LRUCache.is_expired
      rw [hlq]
      exact hqlt
    · intro hx
      unfold LRUCache.is_expired at hx
      cases hl : lookupKey s.expiry_times x with
      | none => rw [hl] at hx; cases hx
      | some t =>
        rw [hl] at hx
        have hmemx : (x, t) ∈ s.expiry_times :=
          (lookupKey_eq_some_iff_mem _ _ _ hwf.2.1).1 hl
        exact List.mem_map.2 ⟨(x, t), List.mem_filter.2 ⟨hmemx, hx⟩, rfl⟩
  refine ⟨?_, ?_, ?_, rfl, h4, h5, h6, h7, h8⟩
  · show (((s.expiry_times.filter (fun p => decide (p.2 < now))).map
        Prod.fst).foldl LRUCache.remove_expired s).cache = _
    rw [h1]
    apply List.filter_congr
    intro p hp
    by_cases hmemks : p.1 ∈ (s.expiry_times.filter (fun p => decide (p.2 < now))).map Prod.fst
    · simp [hmemks, (hin p.1).1 hmemks]
    · have hfalse : LRUCache.is_expired s p.1 now = false := by
        cases hb : LRUCache.is_expired s p.1 now
        · rfl
        · exact absurd ((hin p.1).2 hb) hmemks
      simp [hmemks, hfalse]
  · show (((s.expiry_times.filter (fun p => decide (p.2 < now))).map
        Prod.fst).foldl LRUCache.remove_expired s).expiry_times = _
    rw [h2]
    apply List.filter_congr
    intro q hq
    have hlq : lookupKey s.expiry_times q.1 = some q.2 :=
      (lookupKey_eq_some_iff_mem _ _ _ hwf.2.1).2 hq
    by_cases hlt : q.2 < now
    · have hmemks : q.1 ∈ (s.expiry_times.filter (fun p => decide (p.2 < now))).map
          Prod.fst :=
        List.mem_map.2 ⟨q, List.mem_filter.2 ⟨hq, by simp [hlt]⟩, rfl⟩
      simp [hmemks, hlt]
    · have hnmem : q.1 ∉ (s.expiry_times.filter (fun p => decide (p.2 < now))).map
          Prod.fst := by
        intro hmemks
        have hexp := (hin q.1).1 hmemks
        unfold LRUCache.is_expired at hexp
        rw [hlq] at hexp
        simp at hexp
        exact hlt hexp
      simp [hnmem, hlt]
  · show (((s.expiry_times.filter (fun p => decide (p.2 < now))).map
        Prod.fst).foldl LRUCache.remove_expired s).expirations = _
    rw [h3, List.length_map]

/-- Claim C7 witness: a cache holding `"a"` (expiry 5) and `"b"` (expiry
100), swept at time 50. -/
theorem C7_cleanup_removes_strictly_expired_witness :
    (LRUCache.cleanup_expired
        ((LRUCache.set ((LRUCache.set (LRUCache.init Nat 10 300 0) "a" 1 (some 5) 0).2)
          "b" 2 (some 100) 0).2) 50).cache =
      ((LRUCache.set ((LRUCache.set (LRUCache.init Nat 10 300 0) "a" 1 (some 5) 0).2)
          "b" 2 (some 100) 0).2).cache.filter
        (fun p => !LRUCache.is_expired
          ((LRUCache.set ((LRUCache.set (LRUCache.init Nat 10 300 0) "a" 1 (some 5) 0).2)
            "b" 2 (some 100) 0).2) p.1 50) ∧
    (LRUCache.cleanup_expired
        ((LRUCache.set ((LRUCache.set (LRUCache.init Nat 10 300 0) "a" 1 (some 5) 0).2)
          "b" 2 (some 100) 0).2) 50).last_cleanup = 50 :=
  ⟨(C7_cleanup_removes_strictly_expired
      ((LRUCache.set ((LRUCache.set (LRUCache.init Nat 10 300 0) "a" 1 (some 5) 0).2)
        "b" 2 (some 100) 0).2) 50 (by decide)).1,
   (C7_cleanup_removes_strictly_expired
      ((LRUCache.set ((LRUCache.set (LRUCache.init Nat 10 300 0) "a" 1 (some 5) 0).2)
        "b" 2 (some 100) 0).2) 50 (by decide)).2.2.2.1⟩

/-- Claim C6: re-setting an existing key.  After `set k v1` then
`set k v2` on one instance there is exactly one entry for `k`; it holds
`v2`, sits at the most-recently-used (last) position, and the entry count
equals the count after the first set alone.  The expiry record of `k` is
reset to `now2 + (ttl2 or default_ttl)` — the existing entry is removed
first, so re-insertion resets both recency and expiry. -/
theorem C6_reset_existing_key {α : Type} (s : CacheState α) (k : String)
    (v1 v2 : α) (ttl1 ttl2 : Option Nat) (now1 now2 : Nat)
    (hwf : WF s) (hN : 1 ≤ s.max_size) :
    lookupKey (LRUCache.set (LRUCache.set s k v1 ttl1 now1).2 k v2 ttl2 now2).2.cache k =
      some v2 ∧
    ((LRUCache.set (LRUCache.set s k v1 ttl1 now1).2 k v2 ttl2 now2).2.cache.filter
        (fun p => decide (p.1 = k))).length = 1 ∧
    (LRUCache.set (LRUCache.set s k v1 ttl1 now1).2 k v2 ttl2 now2).2.cache.getLast? =
      some (k, v2) ∧
    (LRUCache.set (LRUCache.set s k v1 ttl1 now1).2 k v2 ttl2 now2).2.cache.length =
      (LRUCache.set s k v1 ttl1 now1).2.cache.length ∧
    lookupKey (LRUCache.set (LRUCache.set s k v1 ttl1 now1).2 k v2 ttl2 now2).2.expiry_times k =
      some (now2 + LRUCache.ttlOrDefault ttl2 s.default_ttl) := by
  have hwf1 : WF (LRUCache.set s k v1 ttl1 now1).2 := wf_set hwf k v1 ttl1 now1
  have hlk1 : lookupKey (LRUCache.set s k v1 ttl1 now1).2.cache k = some v1 :=
    set_lookup_self hwf k v1 ttl1 now1
  have hmem1 : k ∈ keysOf (LRUCache.set s k v1 ttl1 now1).2.cache := by
    rw [← lookupKey_isSome_iff_mem_keysOf]
    simp [hlk1]
  have hmax1 : (LRUCache.set s k v1 ttl1 now1).2.max_size = s.max_size :=
    set_max_size s k v1 ttl1 now1
  have hd1 : (LRUCache.set s k v1 ttl1 now1).2.default_ttl = s.default_ttl := by
    rw [set_eq_of_wf hwf k v1 ttl1 now1]
    show (LRUCache.evictWhile (LRUCache.removeExisting s k)).1.default_ttl = s.default_ttl
    unfold LRUCache.evictWhile
    rw [evictSteps_default_ttl, removeExisting_default_ttl]
  -- the first set leaves the cache strictly within capacity bounds
  have hlen1 : (LRUCache.set s k v1 ttl1 now1).2.cache.length ≤ s.max_size := by
    rw [set_eq_of_wf hwf k v1 ttl1 now1]
    show ((LRUCache.evictWhile (LRUCache.removeExisting s k)).1.cache ++ [(k, v1)]).length ≤
      s.max_size
    have hlt : (LRUCache.evictWhile (LRUCache.removeExisting s k)).1.cache.length <
        (LRUCache.removeExisting s k).max_size := by
      unfold LRUCache.evictWhile
      exact evictSteps_length_lt _ (by rw [removeExisting_max_size]; exact hN) (le_refl _)
    rw [removeExisting_max_size] at hlt
    simp only [List.length_append, List.length_cons, List.length_nil]
    omega
  -- the second set evicts nothing: its intermediate cache is the plain erasure
  have hrm : (LRUCache.removeExisting (LRUCache.set s k v1 ttl1 now1).2 k).cache =
      eraseKey k (LRUCache.set s k v1 ttl1 now1).2.cache := by
    unfold LRUCache.removeExisting
    rw [if_pos ((containsKey_eq_true_iff _ _).2 hmem1)]
  have hrmlen : (LRUCache.removeExisting (LRUCache.set s k v1 ttl1 now1).2 k).cache.length + 1 =
      (LRUCache.set s k v1 ttl1 now1).2.cache.length := by
    rw [hrm]
    exact eraseKey_length_of_mem k _ hmem1
  have hc2 : (LRUCache.evictWhile
      (LRUCache.removeExisting (LRUCache.set s k v1 ttl1 now1).2 k)).1.cache =
      eraseKey k (LRUCache.set s k v1 ttl1 now1).2.cache := by
    unfold LRUCache.evictWhile
    have hspec := (evictSteps_spec
      (LRUCache.removeExisting (LRUCache.set s k v1 ttl1 now1).2 k).cache.length
      (s := LRUCache.removeExisting (LRUCache.set s k v1 ttl1 now1).2 k)
      (by rw [removeExisting_max_size, hmax1]; exact hN) (le_refl _)).1
    have hm0 : (LRUCache.removeExisting (LRUCache.set s k v1 ttl1 now1).2 k).cache.length + 1 -
        (LRUCache.removeExisting (LRUCache.set s k v1 ttl1 now1).2 k).max_size = 0 := by
      rw [removeExisting_max_size, hmax1]
      omega
    rw [hm0] at hspec
    rw [hspec, List.drop_zero, hrm]
  have hkc2 := set_inner_key_not_mem_cache hwf1 k
  rw [hc2] at hkc2
  have hcache2 : (LRUCache.set (LRUCache.set s k v1 ttl1 now1).2 k v2 ttl2 now2).2.cache =
      eraseKey k (LRUCache.set s k v1 ttl1 now1).2.cache ++ [(k, v2)] := by
    rw [set_eq_of_wf hwf1 k v2 ttl2 now2]
    show (LRUCache.evictWhile
        (LRUCache.removeExisting (LRUCache.set s k v1 ttl1 now1).2 k)).1.cache ++ [(k, v2)] =
      eraseKey k (LRUCache.set s k v1 ttl1 now1).2.cache ++ [(k, v2)]
    rw [hc2]
  refine ⟨set_lookup_self hwf1 k v2 ttl2 now2, ?_, ?_, ?_, ?_⟩
  · rw [hcache2, List.filter_append]
    have hnil : (eraseKey k (LRUCache.set s k v1 ttl1 now1).2.cache).filter
        (fun p => decide (p.1 = k)) = [] := by
      rw [List.filter_eq_nil_iff]
      intro p hp
      simp only [decide_eq_true_eq]
      intro he
      apply hkc2
      have hm : p.1 ∈ keysOf (eraseKey k (LRUCache.set s k v1 ttl1 now1).2.cache) :=
        List.mem_map_of_mem Prod.fst hp
      rw [he] at hm
      exact hm
    rw [hnil]
    simp
  · rw [hcache2]
    exact List.getLast?_concat _
  · rw [hcache2]
    simp only [List.length_append, List.length_cons, List.length_nil]
    have hel := eraseKey_length_of_mem k _ hmem1
    omega
  · rw [set_lookup_expiry hwf1 k v2 ttl2 now2, hd1]

/-- Claim C6 witness: set `"a" ↦ 1` then `"a" ↦ 2` on a fresh
3-element cache. -/
theorem C6_reset_existing_key_witness :
    lookupKey (LRUCache.set (LRUCache.set (LRUCache.init Nat 3 300 0)
        "a" 1 none 0).2 "a" 2 (some 60) 4).2.cache "a" = some 2 ∧
    ((LRUCache.set (LRUCache.set (LRUCache.init Nat 3 300 0)
        "a" 1 none 0).2 "a" 2 (some 60) 4).2.cache.filter
        (fun p => decide (p.1 = "a"))).length = 1 ∧
    (LRUCache.set (LRUCache.set (LRUCache.init Nat 3 300 0)
        "a" 1 none 0).2 "a" 2 (some 60) 4).2.cache.getLast? = some ("a", 2) ∧
    (LRUCache.set (LRUCache.set (LRUCache.init Nat 3 300 0)
        "a" 1 none 0).2 "a" 2 (some 60) 4).2.cache.length =
      (LRUCache.set (LRUCache.init Nat 3 300 0) "a" 1 none 0).2.cache.length ∧
    lookupKey (LRUCache.set (LRUCache.set (LRUCache.init Nat 3 300 0)
        "a" 1 none 0).2 "a" 2 (some 60) 4).2.expiry_times "a" =
      some (4 + LRUCache.ttlOrDefault (some 60) 300) :=
  C6_reset_existing_key (LRUCache.init Nat 3 300 0) "a" 1 2 none (some 60) 0 4
    (by decide) (by decide)

/-- Claim C3: the full case analysis of `get(key, default)`.  Absent key:
one more miss, default returned, state otherwise untouched.  Present but
expired (`now > expiry`): the entry is removed from both maps,
`expirations` and `misses` each grow by one, `hits` is unchanged and the
default is returned.  Present and unexpired: the entry moves to the
most-recently-used (last) position with its value intact and `hits` grows
by one.  Consequently `n` consecutive gets on an absent key add `n` to
`misses` and nothing to `hits`, and `n` consecutive gets on a present,
unexpired key add `n` to `hits` and nothing to `misses`. -/
theorem C3_get_semantics {α : Type} (s : CacheState α) (key : String) (d : α)
    (now : Nat) (hwf : WF s) :
    (lookupKey s.cache key = none →
      LRUCache.get s key d now = (d, { s with misses := s.misses + 1 })) ∧
    (∀ v t, lookupKey s.cache key = some v →
      lookupKey s.expiry_times key = some t → t < now →
      (LRUCache.get s key d now).1 = d ∧
      containsKey (LRUCache.get s key d now).2.cache key = false ∧
      containsKey (LRUCache.get s key d now).2.expiry_times key = false ∧
      (LRUCache.get s key d now).2.expirations = s.expirations + 1 ∧
      (LRUCache.get s key d now).2.misses = s.misses + 1 ∧
      (LRUCache.get s key d now).2.hits = s.hits) ∧
    (∀ v, lookupKey s.cache key = some v →
      LRUCache.is_expired s key now = false →
      LRUCache.get s key d now =
        (v, { s with cache := eraseKey key s.cache ++ [(key, v)]
                     hits := s.hits + 1 }) ∧
      (LRUCache.get s key d now).2.cache.getLast? = some (key, v)) ∧
    (∀ n : Nat, lookupKey s.cache key = none →
      (getIter s key d now n).misses = s.misses + n ∧
      (getIter s key d now n).hits = s.hits) ∧
    (∀ (n : Nat) (v : α), lookupKey s.cache key = some v →
      LRUCache.is_expired s key now = false →
      (getIter s key d now n).hits = s.hits + n ∧
      (getIter s key d now n).misses = s.misses) := by
  refine ⟨?_, ?_, ?_, ?_, ?_⟩
  · intro hl
    unfold LRUCache.get
    rw [hl]
  · intro v t hl he ht
    have hexp : LRUCache.is_expired s key now = true := by
      unfold LRUCache.is_expired
      rw [he]
      simp [ht]
    have hck : containsKey s.cache key = true := by simp [containsKey, hl]
    have hcee : containsKey s.expiry_times key = true := by simp [containsKey, he]
    have hstep : LRUCache.get s key d now =
        (d, { s with cache := eraseKey key s.cache
                     expiry_times := eraseKey key s.expiry_times
                     expirations := s.expirations + 1
                     misses := s.misses + 1 }) := by
      unfold LRUCache.get LRUCache.remove_expired
      simp only [hl, hexp, if_true, hck, hcee]
    rw [hstep]
    refine ⟨rfl, ?_, ?_, rfl, rfl, rfl⟩
    · exact (containsKey_eq_false_iff _ _).2 (not_mem_keysOf_eraseKey key _ hwf.1)
    · exact (containsKey_eq_false_iff _ _).2 (not_mem_keysOf_eraseKey key _ hwf.2.1)
  · intro v hl hexp
    have hstep := get_hit_step d hl hexp
    refine ⟨hstep, ?_⟩
    rw [hstep]
    exact List.getLast?_concat _
  · intro n hl
    exact getIter_absent n s key d now hl
  · intro n v hl hexp
    exact getIter_valid n d hwf hl hexp

/-- Claim C3 witness: on a cache holding `"E" ↦ 7` (expiry 5) at clock 3,
four consecutive gets of `"E"` add 4 hits and no misses, and five
consecutive gets of the absent `"Z"` add 5 misses. -/
theorem C3_get_semantics_witness :
    (getIter ((LRUCache.set (LRUCache.init Nat 10 300 0) "E" 7 (some 5) 0).2)
        "E" 0 3 4).hits =
      ((LRUCache.set (LRUCache.init Nat 10 300 0) "E" 7 (some 5) 0).2).hits + 4 ∧
    (getIter ((LRUCache.set (LRUCache.init Nat 10 300 0) "E" 7 (some 5) 0).2)
        "E" 0 3 4).misses =
      ((LRUCache.set (LRUCache.init Nat 10 300 0) "E" 7 (some 5) 0).2).misses ∧
    (getIter ((LRUCache.set (LRUCache.init Nat 10 300 0) "E" 7 (some 5) 0).2)
        "Z" 9 3 5).misses =
      ((LRUCache.set (LRUCache.init Nat 10 300 0) "E" 7 (some 5) 0).2).misses + 5 :=
  ⟨((C3_get_semantics ((LRUCache.set (LRUCache.init Nat 10 300 0) "E" 7 (some 5) 0).2)
      "E" 0 3 (by decide)).2.2.2.2 4 7 (by decide) (by decide)).1,
   ((C3_get_semantics ((LRUCache.set (LRUCache.init Nat 10 300 0) "E" 7 (some 5) 0).2)
      "E" 0 3 (by decide)).2.2.2.2 4 7 (by decide) (by decide)).2,
   ((C3_get_semantics ((LRUCache.set (LRUCache.init Nat 10 300 0) "E" 7 (some 5) 0).2)
      "Z" 9 3 (by decide)).2.2.2.1 5 (by decide)).1⟩

/-- Claim C2: capacity bound and LRU eviction order.  Starting from a
freshly initialized cache with capacity `N ≥ 1`, (i) after every prefix of
any operation sequence the resident entry count never exceeds `N`; and
(ii) at the reached state, a `set` of key `k` appends the new entry after
running the eviction loop on the self-removed state `s1 =
removeExisting · k`, the keys that loop evicts are exactly an initial
segment, in order, of `s1`'s recency-ordered entry list, and each evicted
key's most recent set/get touch (the ghost recency map of `grun`) is no
newer than the touch of every entry still resident at the moment it is
evicted (the entries from position `j` on, when the `j`-th eviction
happens) — i.e. the loop always evicts the least-recently-used entry. -/
theorem C2_capacity_and_lru_eviction {α : Type} (N dttl t0 : Nat)
    (ops : List (CacheOp α)) (hN : 1 ≤ N) :
    (∀ j : Nat,
      (grun (ops.take j) (LRUCache.init α N dttl t0) (fun _ => 0) 0).1.cache.length ≤ N) ∧
    (∀ (k : String) (v : α) (ttl : Option Nat) (now : Nat),
      (LRUCache.set (grun ops (LRUCache.init α N dttl t0) (fun _ => 0) 0).1
          k v ttl now).2.cache =
        (LRUCache.evictWhile (LRUCache.removeExisting
          (grun ops (LRUCache.init α N dttl t0) (fun _ => 0) 0).1 k)).1.cache ++ [(k, v)] ∧
      (LRUCache.evictWhile (LRUCache.removeExisting
          (grun ops (LRUCache.init α N dttl t0) (fun _ => 0) 0).1 k)).2 =
        (keysOf (LRUCache.removeExisting
          (grun ops (LRUCache.init α N dttl t0) (fun _ => 0) 0).1 k).cache).take
          ((LRUCache.evictWhile (LRUCache.removeExisting
            (grun ops (LRUCache.init α N dttl t0) (fun _ => 0) 0).1 k)).2).length ∧
      (∀ (j : Nat) (ek : String),
        ((LRUCache.evictWhile (LRUCache.removeExisting
          (grun ops (LRUCache.init α N dttl t0) (fun _ => 0) 0).1 k)).2)[j]? = some ek →
        ∀ p ∈ ((LRUCache.removeExisting
            (grun ops (LRUCache.init α N dttl t0) (fun _ => 0) 0).1 k).cache).drop j,
          (grun ops (LRUCache.init α N dttl t0) (fun _ => 0) 0).2.1 ek ≤
            (grun ops (LRUCache.init α N dttl t0) (fun _ => 0) 0).2.1 p.1)) := by
  constructor
  · intro j
    rw [grun_fst]
    have h0 : (LRUCache.init α N dttl t0).cache.length ≤ (LRUCache.init α N dttl t0).max_size := by
      show (0 : Nat) ≤ N
      omega
    have := run_cache_length_le (ops.take j) (s := LRUCache.init α N dttl t0) hN h0
    exact this
  · intro k v ttl now
    obtain ⟨hwfS, hpw, hbound⟩ :=
      (grun_inv ops (wf_init α N dttl t0) (touchInv_init α N dttl t0 0 (fun _ => 0)))
    have hmaxS : (grun ops (LRUCache.init α N dttl t0) (fun _ => 0) 0).1.max_size = N := by
      rw [grun_fst]
      exact run_max_size ops (LRUCache.init α N dttl t0)
    have hmax1 : (LRUCache.removeExisting
        (grun ops (LRUCache.init α N dttl t0) (fun _ => 0) 0).1 k).max_size = N := by
      rw [removeExisting_max_size]
      exact hmaxS
    have hspec := evictSteps_spec
      (LRUCache.removeExisting (grun ops (LRUCache.init α N dttl t0) (fun _ => 0) 0).1 k).cache.length
      (s := LRUCache.removeExisting (grun ops (LRUCache.init α N dttl t0) (fun _ => 0) 0).1 k)
      (by rw [hmax1]; exact hN) (le_refl _)
    have hm_le : (LRUCache.removeExisting
          (grun ops (LRUCache.init α N dttl t0) (fun _ => 0) 0).1 k).cache.length + 1 -
        (LRUCache.removeExisting
          (grun ops (LRUCache.init α N dttl t0) (fun _ => 0) 0).1 k).max_size ≤
        (LRUCache.removeExisting
          (grun ops (LRUCache.init α N dttl t0) (fun _ => 0) 0).1 k).cache.length := by
      rw [hmax1]
      omega
    have hlen2 : ((LRUCache.evictWhile (LRUCache.removeExisting
        (grun ops (LRUCache.init α N dttl t0) (fun _ => 0) 0).1 k)).2).length =
        (LRUCache.removeExisting
          (grun ops (LRUCache.init α N dttl t0) (fun _ => 0) 0).1 k).cache.length + 1 -
        (LRUCache.removeExisting
          (grun ops (LRUCache.init α N dttl t0) (fun _ => 0) 0).1 k).max_size := by
      show (LRUCache.evictSteps _ _).2.length = _
      rw [hspec.2, List.length_take, keysOf, List.length_map]
      exact Nat.min_eq_left hm_le
    have hpw1 : ((LRUCache.removeExisting
        (grun ops (LRUCache.init α N dttl t0) (fun _ => 0) 0).1 k).cache).Pairwise
        (fun a b => (grun ops (LRUCache.init α N dttl t0) (fun _ => 0) 0).2.1 a.1 <
          (grun ops (LRUCache.init α N dttl t0) (fun _ => 0) 0).2.1 b.1) :=
      List.Pairwise.sublist (removeExisting_cache_sublist _ k) hpw
    refine ⟨?_, ?_, ?_⟩
    · rw [set_eq_of_wf hwfS k v ttl now]
    · show (LRUCache.evictSteps _ _).2 = _
      rw [hspec.2]
      congr 1
      exact hlen2.symm
    · intro j ek hek
      have hek' : ((keysOf (LRUCache.removeExisting
          (grun ops (LRUCache.init α N dttl t0) (fun _ => 0) 0).1 k).cache).take
          ((LRUCache.removeExisting
            (grun ops (LRUCache.init α N dttl t0) (fun _ => 0) 0).1 k).cache.length + 1 -
          (LRUCache.removeExisting
            (grun ops (LRUCache.init α N dttl t0) (fun _ => 0) 0).1 k).max_size))[j]? =
          some ek := by
        rw [← hspec.2]
        exact hek
      rw [List.getElem?_take] at hek'
      by_cases hj : j < (LRUCache.removeExisting
          (grun ops (LRUCache.init α N dttl t0) (fun _ => 0) 0).1 k).cache.length + 1 -
          (LRUCache.removeExisting
            (grun ops (LRUCache.init α N dttl t0) (fun _ => 0) 0).1 k).max_size
      · rw [if_pos hj] at hek'
        rw [keysOf, List.getElem?_map] at hek'
        cases hq : ((LRUCache.removeExisting
            (grun ops (LRUCache.init α N dttl t0) (fun _ => 0) 0).1 k).cache)[j]? with
        | none =>
          rw [hq] at hek'
          cases hek'
        | some p0 =>
          rw [hq] at hek'
          have hp0 : p0.1 = ek := Option.some.inj hek'
          obtain ⟨hjlt, hjeq⟩ := List.getElem?_eq_some.1 hq
          have hd : ((LRUCache.removeExisting
              (grun ops (LRUCache.init α N dttl t0) (fun _ => 0) 0).1 k).cache).drop j =
              ((LRUCache.removeExisting
                (grun ops (LRUCache.init α N dttl t0) (fun _ => 0) 0).1 k).cache)[j] ::
              ((LRUCache.removeExisting
                (grun ops (LRUCache.init α N dttl t0) (fun _ => 0) 0).1 k).cache).drop (j + 1) :=
            List.drop_eq_getElem_cons hjlt
          have hpwd := List.Pairwise.sublist
            (List.drop_sublist j _) hpw1
          rw [hd] at hpwd
          have hhead := (List.pairwise_cons.1 hpwd).1
          intro p hp
          rw [hd] at hp
          rcases List.mem_cons.1 hp with hpe | hpt
          · rw [hpe, hjeq, hp0]
          · have := hhead p hpt
            rw [hjeq, hp0] at this
            exact Nat.le_of_lt this
      · rw [if_neg hj] at hek'
        cases hek'

/-- Claim C2 witness: three operations on a 2-entry cache, then a set
that must evict. -/
theorem C2_capacity_and_lru_eviction_witness :
    (grun ([CacheOp.setOp "a" 1 none 0, CacheOp.setOp "b" 2 none 1,
        CacheOp.getOp "a" 0 2].take 3)
      (LRUCache.init Nat 2 300 0) (fun _ => 0) 0).1.cache.length ≤ 2 ∧
    (LRUCache.set (grun [CacheOp.setOp "a" 1 none 0, CacheOp.setOp "b" 2 none 1,
        CacheOp.getOp "a" 0 2]
        (LRUCache.init Nat 2 300 0) (fun _ => 0) 0).1 "d" 4 none 9).2.cache =
      (LRUCache.evictWhile (LRUCache.removeExisting
        (grun [CacheOp.setOp "a" 1 none 0, CacheOp.setOp "b" 2 none 1,
          CacheOp.getOp "a" 0 2]
          (LRUCache.init Nat 2 300 0) (fun _ => 0) 0).1 "d")).1.cache ++ [("d", 4)] :=
  ⟨(C2_capacity_and_lru_eviction 2 300 0
      [CacheOp.setOp "a" 1 none 0, CacheOp.setOp "b" 2 none 1,
        CacheOp.getOp "a" 0 2] (by decide)).1 3,
   ((C2_capacity_and_lru_eviction 2 300 0
      [CacheOp.setOp "a" 1 none 0, CacheOp.setOp "b" 2 none 1,
        CacheOp.getOp "a" 0 2] (by decide)).2 "d" 4 none 9).1⟩

end CacheSpec
